import Mathlib

/-!
# lite-shell: command-invocation parsing and constraint validation

Shallow embedding of `src/include/constraint.hpp` (class `ArgumentsConstraint`) and
`src/include/context.hpp` (class `Context` and the factory `Context::get_context`).

* `std::string` is a list of characters, `std::vector<T>` a list.
* `std::map<K, V>` is an association list with unique keys, read with `List.lookup`;
  `m[k]` inserts the key at the end when it is absent.
* `std::set<T>` is a `Finset T`.
* A thrown exception is the `error` case of `Outcome`.
* `unsigned` is a natural number, reduced modulo `2 ^ 32` where a wider value is stored into it.
-/

namespace LiteShell

/-- A `std::string`. -/
abbrev Str := List Char

/-- The exceptions thrown by `constraint.hpp` and `context.hpp`, one constructor per `throw`
site, carrying the values formatted into the message. `outOfRange` stands for an index outside
the string (undefined behaviour in the source). -/
inductive Error where
  /-- `Lower bound of positional arguments must be less than or equal to the upper bound` -/
  | boundsInverted
  /-- `Lower bound of positional arguments must be at least 1` -/
  | lowerBoundZero
  /-- `This overload does not allow arguments checking` -/
  | overloadNoChecking
  /-- `ArgumentsConstraint object does not support context parsing` -/
  | noContextParsing
  /-- `Argument %s already exists` -/
  | alreadyExists (name : Str)
  /-- `Unexpected different sizes of .help and .bounds: %d vs %d` -/
  | differentSizes (helpSize boundsSize : Nat)
  /-- `lower_bound = %d > upper_bound = %d` -/
  | lowerAboveUpper (lower upper : Nat)
  /-- `Argument %s does not exist` -/
  | doesNotExist (name : Str)
  /-- `Unknown argument: %s` -/
  | unknownArgument (name : Str)
  /-- `Input pipe is not supported` -/
  | inputPipe
  /-- `Unsupported option: %s` -/
  | unsupportedOption (name : Str)
  /-- `Too few positional arguments: %d` -/
  | tooFewPositional (count : Nat)
  /-- `Too many positional arguments: %d` -/
  | tooManyPositional (count : Nat)
  /-- `No positional arguments to replace call` -/
  | noTokens
  /-- An index outside the string. -/
  | outOfRange
  /-- The `std::out_of_range` that `std::string::substr` throws for a start after the end. -/
  | substrOutOfRange
  deriving DecidableEq

/-- The outcome of a call that may throw. -/
inductive Outcome (α : Type) where
  | ok (value : α)
  | error (e : Error)
  deriving DecidableEq

/-! ## `std::map` as an association list -/

/-- The statement `m[k] = v` on a `std::map`. -/
def map_assign {V : Type} (k : Str) (v : V) : List (Str × V) → List (Str × V)
  | [] => [(k, v)]
  | (k', v') :: rest => if k' = k then (k', v) :: rest else (k', v') :: map_assign k v rest

/-- The statement `m[k].push_back(v)` on a `std::map<std::string, std::vector<T>>`. -/
def map_push_back {V : Type} (k : Str) (v : V) : List (Str × List V) → List (Str × List V)
  | [] => [(k, [v])]
  | (k', vs) :: rest =>
    if k' = k then (k', vs ++ [v]) :: rest else (k', vs) :: map_push_back k v rest

/-! ## `ArgumentsConstraint` (constraint.hpp) -/

/-- The class `ArgumentsConstraint`: private registry fields and public flags. -/
structure ArgumentsConstraint where
  help : List Str
  bounds : List (Nat × Nat)
  names : List (Str × Nat)
  alias_groups : Finset (Finset Str)
  require_context_parsing : Bool
  arguments_checking : Bool
  args_bounds : Nat × Nat
  deriving DecidableEq

namespace ArgumentsConstraint

/-- The private constructor (constraint.hpp:15-35). -/
def create (require_context_parsing arguments_checking : Bool) (args_bounds : Nat × Nat) :
    Outcome ArgumentsConstraint :=
  if require_context_parsing && arguments_checking then
    if args_bounds.1 > args_bounds.2 then .error .boundsInverted
    else if args_bounds.1 = 0 then .error .lowerBoundZero
    else .ok ⟨[], [], [], ∅, require_context_parsing, arguments_checking, args_bounds⟩
  else .ok ⟨[], [], [], ∅, require_context_parsing, arguments_checking, args_bounds⟩

/-- The constructor `ArgumentsConstraint()` (constraint.hpp:59). -/
def default : Outcome ArgumentsConstraint :=
  create false false (0, 0)

/-- The constructor `ArgumentsConstraint(const bool arguments_checking)` (constraint.hpp:67-73):
the delegated construction runs first, then the body. -/
def ofBool (arguments_checking : Bool) : Outcome ArgumentsConstraint :=
  match create true false (0, 0) with
  | .error e => .error e
  | .ok c => if arguments_checking then .error .overloadNoChecking else .ok c

/-- The constructor `ArgumentsConstraint(args_lower, args_upper)` (constraint.hpp:81-82). -/
def ofBounds (args_lower args_upper : Nat) : Outcome ArgumentsConstraint :=
  create true true (args_lower, args_upper)

/-- The method `has_argument` (constraint.hpp:155-158): `names.count(name)`. -/
def has_argument (c : ArgumentsConstraint) (name : Str) : Bool :=
  (c.names.lookup name).isSome

/-- The method `check_context_parsing` (constraint.hpp:85-91). -/
def check_context_parsing (c : ArgumentsConstraint) : Outcome Unit :=
  if !c.require_context_parsing then .error .noContextParsing else .ok ()

/-- The single-name `add_argument` (constraint.hpp:100-133). The object is mutated in place, so
the state after the call is returned next to the outcome, also when the call throws. -/
def add_argument (c : ArgumentsConstraint) (name help : Str) (lower_bound upper_bound : Nat)
    (add_to_alias_group : Bool) : Outcome Unit × ArgumentsConstraint :=
  match c.check_context_parsing with
  | .error e => (.error e, c)
  | .ok _ =>
    if c.has_argument name then (.error (.alreadyExists name), c)
    else if c.help.length ≠ c.bounds.length then
      (.error (.differentSizes c.help.length c.bounds.length), c)
    else if lower_bound > upper_bound then (.error (.lowerAboveUpper lower_bound upper_bound), c)
    else
      let groups := if add_to_alias_group then insert {name} c.alias_groups else c.alias_groups
      (.ok (),
        { c with
          alias_groups := groups
          names := map_assign name (c.help.length % 2 ^ 32) c.names
          help := c.help ++ [help]
          bounds := c.bounds ++ [(lower_bound, upper_bound)] })

/-- The loop `for (auto &alias : {aliases...})` of the alias form (constraint.hpp:141-144): the
first throwing registration ends the loop and leaves the earlier ones in place. -/
def add_each (help : Str) (lower_bound upper_bound : Nat) :
    ArgumentsConstraint → List Str → Outcome Unit × ArgumentsConstraint
  | c, [] => (.ok (), c)
  | c, name :: rest =>
    match c.add_argument name help lower_bound upper_bound false with
    | (.error e, c') => (.error e, c')
    | (.ok _, c') => add_each help lower_bound upper_bound c' rest

/-- The alias form of `add_argument` (constraint.hpp:135-147). -/
def add_argument_aliases (c : ArgumentsConstraint) (aliases : List Str) (help : Str)
    (lower_bound upper_bound : Nat) : Outcome Unit × ArgumentsConstraint :=
  match c.check_context_parsing with
  | .error e => (.error e, c)
  | .ok _ =>
    add_each help lower_bound upper_bound
      { c with alias_groups := insert aliases.toFinset c.alias_groups } aliases

/-- The method `get_help` (constraint.hpp:160-169). An index outside `help` is undefined
behaviour in the source: `outOfRange`. -/
def get_help (c : ArgumentsConstraint) (name : Str) : Outcome Str :=
  match c.names.lookup name with
  | none => .error (.doesNotExist name)
  | some index =>
    match c.help[index]? with
    | some text => .ok text
    | none => .error .outOfRange

/-- The method `get_bounds` (constraint.hpp:171-180). An index outside `bounds` is undefined
behaviour in the source: `outOfRange`. -/
def get_bounds (c : ArgumentsConstraint) (name : Str) : Outcome (Nat × Nat) :=
  match c.names.lookup name with
  | none => .error (.doesNotExist name)
  | some index =>
    match c.bounds[index]? with
    | some pair => .ok pair
    | none => .error .outOfRange

/-- The method `get_alias_groups` (constraint.hpp:182-185). -/
def get_alias_groups (c : ArgumentsConstraint) : Finset (Finset Str) :=
  c.alias_groups

end ArgumentsConstraint

/-- The constraint states a caller can hold: built by a public constructor, then changed by any
sequence of `add_argument` calls, throwing ones included. -/
inductive Reachable : ArgumentsConstraint → Prop where
  | default {c} : ArgumentsConstraint.default = .ok c → Reachable c
  | ofBool {c} (b : Bool) : ArgumentsConstraint.ofBool b = .ok c → Reachable c
  | ofBounds {c} (lower upper : Nat) : ArgumentsConstraint.ofBounds lower upper = .ok c →
      Reachable c
  | add_argument {c} (name help : Str) (lower upper : Nat) (group : Bool) : Reachable c →
      Reachable (c.add_argument name help lower upper group).2
  | add_argument_aliases {c} (aliases : List Str) (help : Str) (lower upper : Nat) :
      Reachable c → Reachable (c.add_argument_aliases aliases help lower upper).2

/-! ## The tokenizer -/

/-- Modelled from the spec: the whitespace characters that delimit tokens (`utils.hpp` is not
among the sources; spec §6 says `split` is whitespace-delimited). -/
def is_space (c : Char) : Bool :=
  c = ' ' || c = '\t' || c = '\n' || c = '\x0b' || c = '\x0c' || c = '\r'

/-- One character of the tokenizer: a delimiter closes the token being read, if any; any other
character extends it. The state is the tokens closed so far and the token being read. -/
def split_step (state : List Str × Str) (c : Char) : List Str × Str :=
  if is_space c then
    (if state.2 = [] then (state.1, []) else (state.1 ++ [state.2], []))
  else (state.1, state.2 ++ [c])

/-- The end of the message closes the token being read, if any. -/
def split_finish (state : List Str × Str) : List Str :=
  if state.2 = [] then state.1 else state.1 ++ [state.2]

/-- Modelled from the spec: the tokenizer `split` of `utils.hpp`, which is not among the
sources. Spec §6: `split(message)` is the ordered sequence of non-empty, whitespace-delimited
tokens of the message, with no quoting. -/
def split (message : Str) : List Str :=
  split_finish (message.foldl split_step ([], []))

/-! ## `Context` (context.hpp) -/

/-- The class `Context`. The `client` pointer is an opaque address. -/
structure Context where
  message : Str
  tokens : List Str
  args : List Str
  kwargs : List (Str × List Str)
  client : Nat
  constraint : ArgumentsConstraint
  deriving DecidableEq

/-- The constant `BACKGROUND_SUFFIX` (context.hpp:21). -/
def BACKGROUND_SUFFIX : Char := '%'

/-- The locals of `get_context` that the scan updates: `args`, `kwargs`, `current_parameter`. -/
structure ScanState where
  args : List Str
  kwargs : List (Str × List Str)
  current_parameter : Option Str
  deriving DecidableEq

/-- The lambda `add_token` (context.hpp:170-186). -/
def add_token (constraint : ArgumentsConstraint) (st : ScanState) (token : Str) :
    Outcome ScanState :=
  match st.current_parameter with
  | some p =>
    let kwargs := map_push_back p token st.kwargs
    if constraint.arguments_checking && !constraint.has_argument p then
      .error (.unknownArgument p)
    else .ok { st with kwargs := kwargs }
  | none => .ok { st with args := st.args ++ [token] }

/-- The loop over the characters after the leading `-` of a short-flag token
(context.hpp:198-210); `chars` is what remains of the token from index `i` on. -/
def add_short_flags (constraint : ArgumentsConstraint) :
    ScanState → List Char → Outcome ScanState
  | st, [] => .ok st
  | st, c :: chars =>
    let name : Str := ['-', c]
    if c < 'a' || c > 'z' then .error (.unsupportedOption name)
    else
      match add_token constraint { st with current_parameter := some name } name with
      | .error e => .error e
      | .ok st' => add_short_flags constraint st' chars

/-- The body of the loop over the tokens (context.hpp:190-221). -/
def scan_token (constraint : ArgumentsConstraint) (st : ScanState) (token : Str) :
    Outcome ScanState :=
  match token with
  | '-' :: rest =>
    match rest with
    | [] => .error .inputPipe
    | c :: _ =>
      if c ≠ '-' then add_short_flags constraint st rest
      else add_token constraint { st with current_parameter := some token } token
  | _ => add_token constraint st token

/-- The loop `for (auto &token : tokens)` (context.hpp:188-222). -/
def scan_tokens (constraint : ArgumentsConstraint) : ScanState → List Str → Outcome ScanState
  | st, [] => .ok st
  | st, token :: rest =>
    match scan_token constraint st token with
    | .error e => .error e
    | .ok st' => scan_tokens constraint st' rest

/-- The factory `Context::get_context` (context.hpp:160-239). -/
def get_context (client : Nat) (message : Str) (constraint : ArgumentsConstraint) :
    Outcome Context :=
  let tokens := split message
  let scanned :=
    if constraint.require_context_parsing then scan_tokens constraint ⟨[], [], none⟩ tokens
    else .ok ⟨[], [], none⟩
  match scanned with
  | .error e => .error e
  | .ok st =>
    if constraint.arguments_checking then
      if st.args.length < constraint.args_bounds.1 then
        .error (.tooFewPositional st.args.length)
      else if st.args.length > constraint.args_bounds.2 then
        .error (.tooManyPositional st.args.length)
      else .ok ⟨message, tokens, st.args, st.kwargs, client, constraint⟩
    else .ok ⟨message, tokens, st.args, st.kwargs, client, constraint⟩

namespace Context

/-- The method `copy` (context.hpp:74-77). -/
def copy (c : Context) : Context :=
  ⟨c.message, c.tokens, c.args, c.kwargs, c.client, c.constraint⟩

/-- The method `parse` (context.hpp:85-88). -/
def parse (c : Context) (constraint : ArgumentsConstraint) : Outcome Context :=
  get_context c.client c.message constraint

/-- The method `replace_call` (context.hpp:95-115). `message.substr(tokens[0].size())` throws
`std::out_of_range` when the first token is longer than the message. -/
def replace_call (c : Context) (token : Str) : Outcome Context :=
  match c.tokens with
  | [] => .error .noTokens
  | first :: rest =>
    if first.length > c.message.length then .error .substrOutOfRange
    else
      let new_message := token ++ c.message.drop first.length
      let new_tokens := token :: rest
      let new_args :=
        match c.args with
        | [] => []
        | _ :: others => token :: others
      .ok ⟨new_message, new_tokens, new_args, c.kwargs, c.client, c.constraint⟩

/-- The method `is_background_request` (context.hpp:144-147). -/
def is_background_request (c : Context) : Bool :=
  !c.tokens.isEmpty && c.tokens.getLast? = some [BACKGROUND_SUFFIX]

/-- The loop `while (message[size - 1] != BACKGROUND_SUFFIX) size--;` (context.hpp:127-130),
started at `size`. At `size = 0` the index `size - 1` is outside the string: `none`. -/
def scan_back (message : Str) : Nat → Option Nat
  | 0 => none
  | size + 1 => if message[size]? = some BACKGROUND_SUFFIX then some (size + 1)
      else scan_back message size

/-- The method `strip_background_request` (context.hpp:122-137). -/
def strip_background_request (c : Context) : Outcome Context :=
  if c.is_background_request then
    match scan_back c.message c.message.length with
    | none => .error .outOfRange
    | some size => get_context c.client (c.message.take (size - 1)) c.constraint
  else .ok c.copy

end Context

/-- The contexts the program produces: returned by `get_context`, or derived from such a context
by `copy`, `parse`, `replace_call` or `strip_background_request`. -/
inductive Produced : Context → Prop where
  | get_context {c} (client : Nat) (message : Str) (k : ArgumentsConstraint) :
      get_context client message k = .ok c → Produced c
  | copy {c} : Produced c → Produced c.copy
  | parse {c c'} (k : ArgumentsConstraint) : Produced c → c.parse k = .ok c' → Produced c'
  | replace_call {c c'} (token : Str) : Produced c → c.replace_call token = .ok c' →
      Produced c'
  | strip_background_request {c c'} : Produced c → c.strip_background_request = .ok c' →
      Produced c'

/-! ## Vocabulary of the specification -/

/-- A token that begins with `-`. -/
def begins_with_dash (token : Str) : Bool :=
  token.head? = some '-'

/-- A lowercase ASCII letter. -/
def is_lower (c : Char) : Bool :=
  'a' ≤ c && c ≤ 'z'

/-- The flag names a token introduces: the whole token when it begins with `--`, one name
`-c` per character `c` after the dash of a short-flag token, none for any other token. -/
def introduced_names (token : Str) : List Str :=
  match token with
  | c0 :: c1 :: rest =>
    if c0 = '-' then
      if c1 = '-' then [token] else (c1 :: rest).map fun c => ['-', c]
    else []
  | _ => []

/-- A token the scan supports: not the bare `-`, and not a short-flag token with a character
after the dash that is not a lowercase letter. -/
def supported (token : Str) : Bool :=
  match token with
  | c0 :: c1 :: rest =>
    if c0 = '-' then
      if c1 = '-' then true else (c1 :: rest).all is_lower
    else true
  | [c0] => c0 ≠ '-'
  | [] => true

/-- The scan state after a flag name is introduced: it becomes the current parameter and the
first or next value of its own list. -/
def flag_step (st : ScanState) (name : Str) : ScanState :=
  ⟨st.args, map_push_back name name st.kwargs, some name⟩

/-- The scan state after a token that does not begin with `-`. -/
def plain_step (st : ScanState) (token : Str) : ScanState :=
  match st.current_parameter with
  | some p => { st with kwargs := map_push_back p token st.kwargs }
  | none => { st with args := st.args ++ [token] }

/-- The scan state after one supported token. -/
def token_step (st : ScanState) (token : Str) : ScanState :=
  if begins_with_dash token then (introduced_names token).foldl flag_step st
  else plain_step st token

/-- A flag token that introduces exactly one name: `--name`, or `-c` with `c` a lowercase
letter. -/
def is_flag_token (token : Str) : Bool :=
  match token with
  | c0 :: c1 :: rest => c0 = '-' && (c1 = '-' || (is_lower c1 && rest = []))
  | _ => false

/-- Every entry of `kwargs` has a key that begins with `-` and is the first value of its own
list, and the current parameter, if any, begins with `-` and is a key of `kwargs`. -/
def keyed (st : ScanState) : Prop :=
  (∀ e ∈ st.kwargs, begins_with_dash e.1 = true ∧ e.2.head? = some e.1) ∧
    ∀ p, st.current_parameter = some p → ∃ vs, (p, vs) ∈ st.kwargs

/-- The registry of a constraint is consistent: `help` and `bounds` have the same length and
every index stored in `names` is inside them. -/
def registry_consistent (c : ArgumentsConstraint) : Prop :=
  c.help.length = c.bounds.length ∧ ∀ n i, c.names.lookup n = some i → i < c.help.length

/-- The constraint after a registration that does not throw: one slot appended to `help` and
`bounds`, its index stored under the name, and the singleton group recorded when asked. -/
def with_slot (c : ArgumentsConstraint) (name help : Str) (lower_bound upper_bound : Nat)
    (add_to_alias_group : Bool) : ArgumentsConstraint :=
  { c with
    alias_groups := if add_to_alias_group then insert {name} c.alias_groups else c.alias_groups
    names := map_assign name (c.help.length % 2 ^ 32) c.names
    help := c.help ++ [help]
    bounds := c.bounds ++ [(lower_bound, upper_bound)] }

/-- A call threw. -/
def Outcome.failed {α : Type} : Outcome α → Bool
  | .ok _ => false
  | .error _ => true

/-- A name passes the unknown-argument check of `add_token`. -/
def accepted (constraint : ArgumentsConstraint) (name : Str) : Prop :=
  constraint.arguments_checking = true → constraint.has_argument name = true

/-- The current parameter of a scan state, if any, passes the unknown-argument check. -/
def current_accepted (constraint : ArgumentsConstraint) (st : ScanState) : Prop :=
  ∀ p, st.current_parameter = some p → accepted constraint p

/-- The outcome of the classification: the positional and keyword arguments of the context
returned, or the failure. -/
def classification : Outcome Context → Outcome (List Str × List (Str × List Str))
  | .ok c => .ok (c.args, c.kwargs)
  | .error e => .error e

/-- The classification `get_context` computes from the tokens of the message: the scan when the
constraint requires parsing, then the check of the positional bounds
(context.hpp:164-236). -/
def classify (constraint : ArgumentsConstraint) (tokens : List Str) :
    Outcome (List Str × List (Str × List Str)) :=
  match (if constraint.require_context_parsing then
      scan_tokens constraint ⟨[], [], none⟩ tokens else .ok ⟨[], [], none⟩) with
  | .error e => .error e
  | .ok st =>
    if constraint.arguments_checking then
      if st.args.length < constraint.args_bounds.1 then
        .error (.tooFewPositional st.args.length)
      else if st.args.length > constraint.args_bounds.2 then
        .error (.tooManyPositional st.args.length)
      else .ok (st.args, st.kwargs)
    else .ok (st.args, st.kwargs)

/-! ## Concrete constraints used in the examples -/

/-- The constraint built by `ArgumentsConstraint(false)`: parsing without checking. -/
def parse_only : ArgumentsConstraint :=
  ⟨[], [], [], ∅, true, false, (0, 0)⟩

/-- The constraint built by `ArgumentsConstraint()`: no parsing. -/
def no_parsing : ArgumentsConstraint :=
  ⟨[], [], [], ∅, false, false, (0, 0)⟩

/-- The constraint built by `ArgumentsConstraint(1, 2)` after registering `-v`: parsing with
checking, only `-v` registered. -/
def checked_v : ArgumentsConstraint :=
  ⟨["verbose".toList], [(0, 0)], [("-v".toList, 0)], {{"-v".toList}}, true, true, (1, 2)⟩

/-- The constraint built by `ArgumentsConstraint(false)` after registering `-v`: parsing
without checking. -/
def unchecked_v : ArgumentsConstraint :=
  ⟨["verbose".toList], [(0, 0)], [("-v".toList, 0)], {{"-v".toList}}, true, false, (0, 0)⟩

/-- The context `get_context` returns for the message `args a b -c d` under `parse_only`. -/
def args_a_b_c_d : Context :=
  ⟨"args a b -c d".toList,
    ["args".toList, "a".toList, "b".toList, "-c".toList, "d".toList],
    ["args".toList, "a".toList, "b".toList],
    [("-c".toList, ["-c".toList, "d".toList])], 0, parse_only⟩

/-- The context `get_context` returns for `args a b -c d e -g h` under `parse_only`. -/
def args_a_b_c_d_e_g_h : Context :=
  ⟨"args a b -c d e -g h".toList,
    ["args".toList, "a".toList, "b".toList, "-c".toList, "d".toList, "e".toList,
      "-g".toList, "h".toList],
    ["args".toList, "a".toList, "b".toList],
    [("-c".toList, ["-c".toList, "d".toList, "e".toList]),
      ("-g".toList, ["-g".toList, "h".toList])], 0, parse_only⟩

/-- The context `get_context` returns for the message `cmd -ab x` under `parse_only`. -/
def cmd_ab_x : Context :=
  ⟨"cmd -ab x".toList, ["cmd".toList, "-ab".toList, "x".toList], ["cmd".toList],
    [("-a".toList, ["-a".toList]), ("-b".toList, ["-b".toList, "x".toList])], 0, parse_only⟩

/-- The context `get_context` returns for the message `cmd %` under `parse_only`. -/
def cmd_marked : Context :=
  ⟨"cmd %".toList, ["cmd".toList, "%".toList], ["cmd".toList, "%".toList], [], 0, parse_only⟩

/-- The context `get_context` returns for the message `cmd -v % ` under `checked_v`. -/
def cmd_v_marked : Context :=
  ⟨"cmd -v % ".toList, ["cmd".toList, "-v".toList, "%".toList], ["cmd".toList],
    [("-v".toList, ["-v".toList, "%".toList])], 0, checked_v⟩

/-- The context `get_context` returns for the message ` cmd x`, with its leading space, under
`parse_only`. -/
def cmd_x_led : Context :=
  ⟨" cmd x".toList, ["cmd".toList, "x".toList], ["cmd".toList, "x".toList], [], 0, parse_only⟩

/-- The constraint built by `ArgumentsConstraint(1, 2)`. -/
def checked_1_2 : ArgumentsConstraint :=
  ⟨[], [], [], ∅, true, true, (1, 2)⟩

/-- The constraint built by `ArgumentsConstraint(1, 2)` after registering `-v` with another help
text and the value bounds `(3, 5)`. -/
def checked_v_wide : ArgumentsConstraint :=
  ⟨["more output".toList], [(3, 5)], [("-v".toList, 0)], {{"-v".toList}}, true, true, (1, 2)⟩

theorem add_token_none (k : ArgumentsConstraint) (st : ScanState) (t : Str)
    (h : st.current_parameter = none) :
    add_token k st t = .ok { st with args := st.args ++ [t] } := by
  simp [add_token, h]

theorem add_token_some_iff (k : ArgumentsConstraint) (st st' : ScanState) (t p : Str)
    (h : st.current_parameter = some p) :
    add_token k st t = .ok st' ↔
      accepted k p ∧ st' = { st with kwargs := map_push_back p t st.kwargs } := by
  obtain ⟨a, kw, cur⟩ := st
  simp only at h
  subst h
  simp only [add_token, accepted]
  cases hc : k.arguments_checking <;> cases ha : k.has_argument p <;> simp <;> exact eq_comm

theorem add_token_ok_iff (k : ArgumentsConstraint) (st st' : ScanState) (t : Str) :
    add_token k st t = .ok st' ↔ current_accepted k st ∧ st' = plain_step st t := by
  cases hp : st.current_parameter with
  | none => simp [add_token_none k st t hp, current_accepted, plain_step, hp, eq_comm]
  | some p =>
    rw [add_token_some_iff k st st' t p hp]
    simp [current_accepted, plain_step, hp]

theorem add_short_flags_ok_iff (k : ArgumentsConstraint) (cs : List Char) :
    ∀ st st' : ScanState, add_short_flags k st cs = .ok st' ↔
      cs.all is_lower = true ∧ (∀ c ∈ cs, accepted k ['-', c]) ∧
        st' = (cs.map fun c => ['-', c]).foldl flag_step st := by
  induction cs with
  | nil => intro st st'; simp [add_short_flags, eq_comm]
  | cons c cs ih =>
    intro st st'
    unfold add_short_flags
    by_cases hl : is_lower c = true
    · have hl' : ¬ (c < 'a' ∨ c > 'z') := by
        simp only [is_lower, Bool.and_eq_true, decide_eq_true_eq] at hl
        intro h
        rcases h with h | h
        · exact absurd hl.1 (not_le.mpr h)
        · exact absurd hl.2 (not_le.mpr h)
      simp only [Bool.or_eq_true, decide_eq_true_eq, hl', if_false]
      cases hadd : add_token k { st with current_parameter := some ['-', c] } ['-', c] with
      | error e =>
        have : ¬ accepted k ['-', c] := by
          intro hacc
          have := (add_token_some_iff k { st with current_parameter := some ['-', c] }
            _ ['-', c] ['-', c] rfl).mpr ⟨hacc, rfl⟩
          rw [hadd] at this
          cases this
        simp [this]
      | ok st1 =>
        have h1 := (add_token_some_iff k { st with current_parameter := some ['-', c] }
            st1 ['-', c] ['-', c] rfl).mp hadd
        simp only [ih, List.all_cons, hl, Bool.true_and, List.mem_cons, forall_eq_or_imp,
          List.map_cons, List.foldl_cons]
        have : st1 = flag_step st ['-', c] := by rw [h1.2]; rfl
        rw [this]
        simp [h1.1]
    · have hl' : (c < 'a' ∨ c > 'z') := by
        simp only [is_lower, Bool.and_eq_true, decide_eq_true_eq, not_and_or, not_le] at hl
        exact hl
      simp [hl', hl]


theorem scan_token_plain (k : ArgumentsConstraint) (st : ScanState) (t : Str)
    (h : begins_with_dash t = false) : scan_token k st t = add_token k st t := by
  match t with
  | [] => rfl
  | c :: rest =>
    have hc : c ≠ '-' := by simpa [begins_with_dash] using h
    unfold scan_token
    split
    · rename_i heq
      exact absurd (List.cons.inj heq).1 hc
    · rfl

theorem scan_token_dash (k : ArgumentsConstraint) (st : ScanState) (rest : List Char) :
    scan_token k st ('-' :: rest) =
      match rest with
      | [] => .error .inputPipe
      | c :: _ =>
        if c ≠ '-' then add_short_flags k st rest
        else add_token k { st with current_parameter := some ('-' :: rest) } ('-' :: rest) := by
  rfl

theorem scan_token_ok_iff (k : ArgumentsConstraint) (st st' : ScanState) (t : Str) :
    scan_token k st t = .ok st' ↔
      supported t = true ∧ (∀ n ∈ introduced_names t, accepted k n) ∧
        (begins_with_dash t = false → current_accepted k st) ∧ st' = token_step st t := by
  by_cases hd : begins_with_dash t = true
  · match t, hd with
    | c0 :: rest, hd =>
      have hc : c0 = '-' := by simpa [begins_with_dash] using hd
      subst hc
      rw [scan_token_dash]
      match rest with
      | [] => simp [supported]
      | c1 :: rest =>
        by_cases h1 : c1 = '-'
        · subst h1
          simp only [ne_eq, not_true_eq_false, if_false]
          rw [add_token_some_iff k _ st' _ ('-' :: '-' :: rest) rfl]
          simp [supported, introduced_names, token_step, begins_with_dash, flag_step]
        · simp only [ne_eq, h1, not_false_eq_true, if_true]
          rw [add_short_flags_ok_iff]
          simp [supported, introduced_names, token_step, begins_with_dash, h1]
  · have hd' : begins_with_dash t = false := by simpa using hd
    rw [scan_token_plain k st t hd', add_token_ok_iff]
    have hs : supported t = true := by
      match t, hd' with
      | [], _ => rfl
      | [c0], h => simpa [supported, begins_with_dash] using h
      | c0 :: c1 :: rest, h =>
        have : c0 ≠ '-' := by simpa [begins_with_dash] using h
        simp [supported, this]
    have hn : introduced_names t = [] := by
      match t, hd' with
      | [], _ => rfl
      | [c0], h => rfl
      | c0 :: c1 :: rest, h =>
        have : c0 ≠ '-' := by simpa [begins_with_dash] using h
        simp [introduced_names, this]
    simp [hs, hn, hd', token_step]


theorem foldl_flag_step_args (names : List Str) :
    ∀ st : ScanState, (names.foldl flag_step st).args = st.args := by
  induction names with
  | nil => intro st; rfl
  | cons n names ih => intro st; rw [List.foldl_cons, ih]; rfl

theorem foldl_flag_step_current (names : List Str) :
    ∀ st : ScanState, (names.foldl flag_step st).current_parameter =
      (names.getLast?).or st.current_parameter := by
  induction names with
  | nil => intro st; rfl
  | cons n names ih =>
    intro st
    rw [List.foldl_cons, ih]
    cases names with
    | nil => rfl
    | cons m names =>
      rw [List.getLast?_cons_cons]
      cases h : (m :: names).getLast? with
      | none => exact absurd (List.getLast?_eq_none_iff.mp h) (List.cons_ne_nil _ _)
      | some x => rfl

theorem scan_tokens_ok (k : ArgumentsConstraint) (ts : List Str) :
    ∀ st st' : ScanState, scan_tokens k st ts = .ok st' →
      (∀ t ∈ ts, supported t = true) ∧ (∀ t ∈ ts, ∀ n ∈ introduced_names t, accepted k n) ∧
        st' = ts.foldl token_step st := by
  induction ts with
  | nil => intro st st' h; simp only [scan_tokens, Outcome.ok.injEq] at h; simp [h]
  | cons t ts ih =>
    intro st st' h
    unfold scan_tokens at h
    cases h1 : scan_token k st t with
    | error e => rw [h1] at h; cases h
    | ok st1 =>
      rw [h1] at h
      obtain ⟨hs, hn, _, hst⟩ := (scan_token_ok_iff k st st1 t).mp h1
      obtain ⟨hs', hn', hst'⟩ := ih st1 st' h
      subst hst
      refine ⟨?_, ?_, hst'⟩
      · intro u hu
        rcases List.mem_cons.mp hu with rfl | hu
        · exact hs
        · exact hs' u hu
      · intro u hu
        rcases List.mem_cons.mp hu with rfl | hu
        · exact hn
        · exact hn' u hu

theorem introduced_names_ne_nil (t : Str) (hd : begins_with_dash t = true)
    (hs : supported t = true) : introduced_names t ≠ [] := by
  match t, hd, hs with
  | [c0], hd, hs =>
    have : c0 = '-' := by simpa [begins_with_dash] using hd
    simp [supported, this] at hs
  | c0 :: c1 :: rest, hd, _ =>
    have : c0 = '-' := by simpa [begins_with_dash] using hd
    subst this
    by_cases h1 : c1 = '-' <;> simp [introduced_names, h1]

theorem token_step_args_of_some (st : ScanState) (t : Str)
    (h : st.current_parameter.isSome = true) :
    (token_step st t).current_parameter.isSome = true ∧ (token_step st t).args = st.args := by
  unfold token_step
  split
  · rw [foldl_flag_step_current, foldl_flag_step_args]
    refine ⟨?_, rfl⟩
    cases (introduced_names t).getLast? with
    | none => exact h
    | some n => rfl
  · obtain ⟨a, kw, cur⟩ := st
    cases cur with
    | none => cases h
    | some p => exact ⟨rfl, rfl⟩

theorem foldl_token_step_args_of_some (ts : List Str) :
    ∀ st : ScanState, st.current_parameter.isSome = true →
      (ts.foldl token_step st).args = st.args := by
  induction ts with
  | nil => intro st _; rfl
  | cons t ts ih =>
    intro st h
    rw [List.foldl_cons, ih _ (token_step_args_of_some st t h).1]
    exact (token_step_args_of_some st t h).2

theorem foldl_token_step_args_of_none (ts : List Str) :
    ∀ st : ScanState, st.current_parameter = none → (∀ t ∈ ts, supported t = true) →
      (ts.foldl token_step st).args =
        st.args ++ ts.takeWhile fun t => !begins_with_dash t := by
  induction ts with
  | nil => intro st _ _; simp
  | cons t ts ih =>
    intro st h hs
    rw [List.foldl_cons]
    by_cases hd : begins_with_dash t = true
    · have hcur : (token_step st t).current_parameter.isSome = true := by
        simp only [token_step, hd, if_true]
        rw [foldl_flag_step_current]
        cases hl : (introduced_names t).getLast? with
        | none =>
          exact absurd (List.getLast?_eq_none_iff.mp hl)
            (introduced_names_ne_nil t hd (hs t (List.mem_cons_self _ _)))
        | some n => rfl
      rw [foldl_token_step_args_of_some ts _ hcur]
      simp [token_step, hd, foldl_flag_step_args]
    · have hd' : begins_with_dash t = false := by simpa using hd
      have hstep : token_step st t = { st with args := st.args ++ [t] } := by
        simp [token_step, hd', plain_step, h]
      rw [ih _ (by rw [hstep]; exact h) (fun u hu => hs u (List.mem_cons_of_mem _ hu)), hstep]
      simp [hd']

/-- What a successful `get_context` returns, in terms of the scan. -/
theorem get_context_ok (client : Nat) (message : Str) (k : ArgumentsConstraint) (c : Context)
    (h : get_context client message k = .ok c) :
    ∃ st, (if k.require_context_parsing then scan_tokens k ⟨[], [], none⟩ (split message)
        else .ok ⟨[], [], none⟩) = .ok st ∧
      (k.arguments_checking = true →
        k.args_bounds.1 ≤ st.args.length ∧ st.args.length ≤ k.args_bounds.2) ∧
      c = ⟨message, split message, st.args, st.kwargs, client, k⟩ := by
  unfold get_context at h
  simp only at h
  split at h
  · cases h
  · rename_i st hst
    refine ⟨st, hst, ?_⟩
    by_cases hc : k.arguments_checking = true
    · simp only [hc, if_true] at h
      split at h
      · cases h
      · split at h
        · cases h
        · rename_i h1 h2
          simp only [Outcome.ok.injEq] at h
          exact ⟨fun _ => ⟨not_lt.mp h1, not_lt.mp h2⟩, h.symm⟩
    · simp only [hc] at h
      simp only [Bool.false_eq_true, if_false, Outcome.ok.injEq] at h
      exact ⟨fun h' => absurd h' hc, h.symm⟩

/-! ## Positional arguments -/

/-- C1: under a constraint that requires parsing, the positional arguments of a context returned
by `get_context` are exactly the longest prefix of the tokens of the message in which no token
begins with `-`; nothing at or after the first flag token is positional. -/
theorem get_context_args_eq_takeWhile (client : Nat) (message : Str)
    (k : ArgumentsConstraint) (c : Context) (hp : k.require_context_parsing = true)
    (h : get_context client message k = .ok c) :
    c.tokens = split message ∧ c.args = c.tokens.takeWhile fun t => !begins_with_dash t := by
  obtain ⟨st, hst, _, hc⟩ := get_context_ok client message k c h
  rw [hp] at hst
  simp only [if_true] at hst
  obtain ⟨hs, _, hfold⟩ := scan_tokens_ok k (split message) _ st hst
  subst hc
  refine ⟨rfl, ?_⟩
  simp only
  rw [hfold, foldl_token_step_args_of_none (split message) _ rfl hs]
  rfl

/-- C1, at the message `args a b -c d`. -/
theorem get_context_args_eq_takeWhile_witness :
    parse_only.require_context_parsing = true ∧
      get_context 0 "args a b -c d".toList parse_only = .ok args_a_b_c_d ∧
      args_a_b_c_d.tokens = split "args a b -c d".toList ∧
      args_a_b_c_d.args = args_a_b_c_d.tokens.takeWhile fun t => !begins_with_dash t :=
  ⟨rfl, by decide,
    get_context_args_eq_takeWhile 0 "args a b -c d".toList parse_only args_a_b_c_d rfl
      (by decide)⟩

/-! ## Lookup in the keyword-argument map -/

theorem lookup_cons_eq {V : Type} (a k : Str) (b : V) (es : List (Str × V)) :
    ((k, b) :: es).lookup a = if k = a then some b else es.lookup a := by
  rw [List.lookup_cons]
  by_cases h : k = a
  · subst h; simp
  · have : (a == k) = false := by simpa using fun h' => h h'.symm
    simp [this, h]

theorem lookup_map_push_back_self {V : Type} (k : Str) (v : V) (m : List (Str × List V)) :
    (map_push_back k v m).lookup k = some ((m.lookup k).getD [] ++ [v]) := by
  induction m with
  | nil => simp [map_push_back, lookup_cons_eq]
  | cons e m ih =>
    obtain ⟨k', vs⟩ := e
    unfold map_push_back
    by_cases h : k' = k
    · simp [h, lookup_cons_eq]
    · simp [h, lookup_cons_eq, ih]

theorem lookup_map_push_back_of_ne {V : Type} (k k' : Str) (v : V) (m : List (Str × List V))
    (hne : k ≠ k') : (map_push_back k v m).lookup k' = m.lookup k' := by
  induction m with
  | nil => simp [map_push_back, lookup_cons_eq, hne]
  | cons e m ih =>
    obtain ⟨k1, vs⟩ := e
    unfold map_push_back
    by_cases h : k1 = k
    · subst h; simp [lookup_cons_eq, hne]
    · simp only [h, if_false, lookup_cons_eq, ih]

/-- Every entry of the map after `m[k].push_back(v)` is an old entry under another key, the old
entry of `k` extended by `v`, or the new entry `(k, [v])`. -/
theorem mem_map_push_back {V : Type} (k : Str) (v : V) (m : List (Str × List V))
    (e : Str × List V) (he : e ∈ map_push_back k v m) :
    e ∈ m ∨ (∃ vs, (k, vs) ∈ m ∧ e = (k, vs ++ [v])) ∨
      (e = (k, [v]) ∧ ∀ vs, (k, vs) ∉ m) := by
  induction m with
  | nil =>
    simp only [map_push_back, List.mem_singleton] at he
    exact Or.inr (Or.inr ⟨he, fun _ h => by cases h⟩)
  | cons e1 m ih =>
    obtain ⟨k1, vs1⟩ := e1
    unfold map_push_back at he
    by_cases h : k1 = k
    · subst h
      simp only [if_true, List.mem_cons] at he
      rcases he with he | he
      · exact Or.inr (Or.inl ⟨vs1, List.mem_cons_self _ _, he⟩)
      · exact Or.inl (List.mem_cons_of_mem _ he)
    · simp only [h, if_false, List.mem_cons] at he
      rcases he with he | he
      · exact Or.inl (he ▸ List.mem_cons_self _ _)
      · rcases ih he with h1 | ⟨vs, h1, h2⟩ | ⟨h1, h2⟩
        · exact Or.inl (List.mem_cons_of_mem _ h1)
        · exact Or.inr (Or.inl ⟨vs, List.mem_cons_of_mem _ h1, h2⟩)
        · refine Or.inr (Or.inr ⟨h1, fun vs hvs => ?_⟩)
          rcases List.mem_cons.mp hvs with hvs | hvs
          · exact h (Prod.mk.inj hvs).1.symm
          · exact h2 vs hvs

theorem exists_mem_map_push_back {V : Type} (k : Str) (v : V) (m : List (Str × List V)) :
    ∃ vs, (k, vs) ∈ map_push_back k v m := by
  induction m with
  | nil => exact ⟨[v], List.mem_singleton.mpr rfl⟩
  | cons e1 m ih =>
    obtain ⟨k1, vs1⟩ := e1
    unfold map_push_back
    by_cases h : k1 = k
    · subst h; exact ⟨vs1 ++ [v], by simp⟩
    · obtain ⟨vs, hvs⟩ := ih
      exact ⟨vs, by simp [h, hvs]⟩

theorem exists_mem_map_push_back_of_mem {V : Type} (k k' : Str) (v : V) (vs : List V)
    (m : List (Str × List V)) (h : (k', vs) ∈ m) : ∃ ws, (k', ws) ∈ map_push_back k v m := by
  by_cases hk : k = k'
  · subst hk; exact exists_mem_map_push_back k v m
  · induction m with
    | nil => cases h
    | cons e1 m ih =>
      obtain ⟨k1, vs1⟩ := e1
      unfold map_push_back
      by_cases h1 : k1 = k
      · subst h1
        rcases List.mem_cons.mp h with h | h
        · exact absurd (Prod.mk.inj h).1.symm hk
        · exact ⟨vs, by simp [h]⟩
      · rcases List.mem_cons.mp h with h | h
        · exact ⟨vs, by simp [h1, h]⟩
        · obtain ⟨ws, hws⟩ := ih h
          exact ⟨ws, by simp [h1, hws]⟩

/-! ## Keyword arguments -/

theorem introduced_names_flag_token (f : Str) (hf : is_flag_token f = true) :
    begins_with_dash f = true ∧ introduced_names f = [f] := by
  match f, hf with
  | c0 :: c1 :: rest, hf =>
    simp only [is_flag_token, Bool.and_eq_true, Bool.or_eq_true, decide_eq_true_eq] at hf
    obtain ⟨h0, h1⟩ := hf
    subst h0
    refine ⟨rfl, ?_⟩
    by_cases hc : c1 = '-'
    · simp [introduced_names, hc]
    · rcases h1 with h1 | ⟨_, h1⟩
      · exact absurd h1 hc
      · subst h1; simp [introduced_names, hc]

theorem begins_with_dash_of_mem_introduced_names (t n : Str) (h : n ∈ introduced_names t) :
    begins_with_dash n = true := by
  match t, h with
  | c0 :: c1 :: rest, h =>
    unfold introduced_names at h
    by_cases h0 : c0 = '-'
    · by_cases h1 : c1 = '-'
      · simp only [h0, h1, if_true, List.mem_singleton] at h
        subst h; rfl
      · simp only [h0, h1, if_true, if_false, List.mem_map] at h
        obtain ⟨c, _, hc⟩ := h
        subst hc; rfl
    · simp [h0] at h

theorem foldl_flag_step_lookup (f : Str) (names : List Str) (hf : f ∉ names) :
    ∀ st : ScanState, (names.foldl flag_step st).kwargs.lookup f = st.kwargs.lookup f := by
  induction names with
  | nil => intro st; rfl
  | cons n names ih =>
    intro st
    rw [List.foldl_cons, ih (fun h => hf (List.mem_cons_of_mem _ h))]
    exact lookup_map_push_back_of_ne n f n st.kwargs
      (fun h => hf (h ▸ List.mem_cons_self _ _))

theorem token_step_lookup_of_ne (f : Str) (st : ScanState) (t : Str)
    (hcur : st.current_parameter ≠ some f) (hf : f ∉ introduced_names t) :
    (token_step st t).kwargs.lookup f = st.kwargs.lookup f ∧
      (token_step st t).current_parameter ≠ some f := by
  unfold token_step
  split
  · rw [foldl_flag_step_lookup f _ hf, foldl_flag_step_current]
    refine ⟨rfl, ?_⟩
    cases hl : (introduced_names t).getLast? with
    | none => exact hcur
    | some n =>
      intro h
      have : n = f := by simpa using h
      exact hf (this ▸ List.mem_of_getLast?_eq_some hl)
  · obtain ⟨a, kw, cur⟩ := st
    cases cur with
    | none => exact ⟨rfl, hcur⟩
    | some p =>
      refine ⟨?_, hcur⟩
      exact lookup_map_push_back_of_ne p f t kw (fun h => hcur (by rw [h]))

theorem token_step_dash_lookup (f : Str) (st : ScanState) (t : Str)
    (hd : begins_with_dash t = true) (hs : supported t = true)
    (hf : f ∉ introduced_names t) :
    (token_step st t).kwargs.lookup f = st.kwargs.lookup f ∧
      (token_step st t).current_parameter ≠ some f := by
  simp only [token_step, hd, if_true]
  rw [foldl_flag_step_lookup f _ hf, foldl_flag_step_current]
  refine ⟨rfl, ?_⟩
  cases hl : (introduced_names t).getLast? with
  | none => exact absurd (List.getLast?_eq_none_iff.mp hl) (introduced_names_ne_nil t hd hs)
  | some n =>
    intro h
    have : n = f := by simpa using h
    exact hf (this ▸ List.mem_of_getLast?_eq_some hl)

theorem foldl_token_step_lookup_of_ne (f : Str) (ts : List Str) :
    ∀ st : ScanState, st.current_parameter ≠ some f → (∀ t ∈ ts, f ∉ introduced_names t) →
      (ts.foldl token_step st).kwargs.lookup f = st.kwargs.lookup f ∧
        (ts.foldl token_step st).current_parameter ≠ some f := by
  induction ts with
  | nil => intro st h _; exact ⟨rfl, h⟩
  | cons t ts ih =>
    intro st h hf
    obtain ⟨h1, h2⟩ := token_step_lookup_of_ne f st t h (hf t (List.mem_cons_self _ _))
    obtain ⟨h3, h4⟩ := ih (token_step st t) h2 (fun u hu => hf u (List.mem_cons_of_mem _ hu))
    rw [List.foldl_cons]
    exact ⟨h3.trans h1, h4⟩

theorem foldl_token_step_values (f : Str) (vs : List Str)
    (hvs : ∀ v ∈ vs, begins_with_dash v = false) :
    ∀ (st : ScanState) (ws : List Str), st.current_parameter = some f →
      st.kwargs.lookup f = some ws →
      (vs.foldl token_step st).kwargs.lookup f = some (ws ++ vs) ∧
        (vs.foldl token_step st).current_parameter = some f := by
  induction vs with
  | nil => intro st ws h1 h2; simpa using ⟨h2, h1⟩
  | cons v vs ih =>
    intro st ws h1 h2
    have hv := hvs v (List.mem_cons_self _ _)
    have hstep : token_step st v = { st with kwargs := map_push_back f v st.kwargs } := by
      simp [token_step, hv, plain_step, h1]
    rw [List.foldl_cons, hstep]
    have := ih (fun u hu => hvs u (List.mem_cons_of_mem _ hu))
      { st with kwargs := map_push_back f v st.kwargs } (ws ++ [v]) h1
      (by simp [lookup_map_push_back_self, h2])
    simpa using this

/-- The value list of a flag introduced once: the flag name, then the tokens it absorbs. -/
theorem foldl_token_step_flag_values (p vs rest : List Str) (f : Str)
    (hf : is_flag_token f = true) (hvs : ∀ v ∈ vs, begins_with_dash v = false)
    (hrest : ∀ r ∈ rest.head?, begins_with_dash r = true)
    (hsup : ∀ t ∈ rest, supported t = true)
    (hintro : ∀ t ∈ p ++ rest, f ∉ introduced_names t) :
    ((p ++ [f] ++ vs ++ rest).foldl token_step ⟨[], [], none⟩).kwargs.lookup f =
      some (f :: vs) := by
  obtain ⟨hfd, hfn⟩ := introduced_names_flag_token f hf
  simp only [List.foldl_append, List.foldl_cons, List.foldl_nil]
  obtain ⟨hp1, _⟩ := foldl_token_step_lookup_of_ne f p ⟨[], [], none⟩ (by simp)
    (fun t ht => hintro t (List.mem_append_left _ ht))
  generalize p.foldl token_step ⟨[], [], none⟩ = s1 at hp1 ⊢
  have hs2 : token_step s1 f = flag_step s1 f := by simp [token_step, hfd, hfn]
  rw [hs2]
  have hl2 : (flag_step s1 f).kwargs.lookup f = some [f] := by
    simp only [flag_step, lookup_map_push_back_self, hp1]
    rfl
  obtain ⟨hl3, hc3⟩ := foldl_token_step_values f vs hvs (flag_step s1 f) [f] rfl hl2
  generalize vs.foldl token_step (flag_step s1 f) = s3 at hl3 hc3 ⊢
  match rest, hrest, hsup, hintro with
  | [], _, _, _ => simpa using hl3
  | r :: rest, hrest, hsup, hintro =>
    have hr := hrest r (by simp)
    obtain ⟨hl4, hc4⟩ := token_step_dash_lookup f s3 r hr (hsup r (List.mem_cons_self _ _))
      (hintro r (by simp))
    obtain ⟨hl5, _⟩ := foldl_token_step_lookup_of_ne f rest (token_step s3 r) hc4
      (fun t ht => hintro t (by simp [ht]))
    rw [List.foldl_cons, hl5, hl4]
    simpa using hl3

theorem head?_append_of_head? {α : Type} (xs ys : List α) (a : α) (h : xs.head? = some a) :
    (xs ++ ys).head? = some a := by
  cases xs with
  | nil => cases h
  | cons x xs => simpa using h

theorem keyed_flag_step (st : ScanState) (n : Str) (hn : begins_with_dash n = true)
    (h : keyed st) : keyed (flag_step st n) := by
  refine ⟨fun e he => ?_, fun p hp => ?_⟩
  · rcases mem_map_push_back n n st.kwargs e he with h1 | ⟨vs, h1, h2⟩ | ⟨h1, _⟩
    · exact h.1 e h1
    · subst h2
      exact ⟨hn, head?_append_of_head? _ _ _ (h.1 _ h1).2⟩
    · subst h1
      exact ⟨hn, rfl⟩
  · have : n = p := by simpa [flag_step] using hp
    subst this
    exact exists_mem_map_push_back n n st.kwargs

theorem keyed_plain_step (st : ScanState) (t : Str) (h : keyed st) :
    keyed (plain_step st t) := by
  obtain ⟨a, kw, cur⟩ := st
  cases cur with
  | none => exact h
  | some p =>
    obtain ⟨vs0, hvs0⟩ := h.2 p rfl
    refine ⟨fun e he => ?_, fun q hq => ?_⟩
    · rcases mem_map_push_back p t kw e he with h1 | ⟨vs, h1, h2⟩ | ⟨_, h2⟩
      · exact h.1 e h1
      · subst h2
        exact ⟨(h.1 _ h1).1, head?_append_of_head? _ _ _ (h.1 _ h1).2⟩
      · exact absurd hvs0 (h2 vs0)
    · have : p = q := by simpa [plain_step] using hq
      subst this
      exact exists_mem_map_push_back p t kw

theorem keyed_foldl_flag_step (names : List Str)
    (hn : ∀ n ∈ names, begins_with_dash n = true) :
    ∀ st : ScanState, keyed st → keyed (names.foldl flag_step st) := by
  induction names with
  | nil => intro st h; exact h
  | cons n names ih =>
    intro st h
    rw [List.foldl_cons]
    exact ih (fun m hm => hn m (List.mem_cons_of_mem _ hm)) _
      (keyed_flag_step st n (hn n (List.mem_cons_self _ _)) h)

theorem keyed_token_step (st : ScanState) (t : Str) (h : keyed st) :
    keyed (token_step st t) := by
  unfold token_step
  split
  · exact keyed_foldl_flag_step _ (fun n hn => begins_with_dash_of_mem_introduced_names t n hn)
      st h
  · exact keyed_plain_step st t h

theorem keyed_foldl_token_step (ts : List Str) :
    ∀ st : ScanState, keyed st → keyed (ts.foldl token_step st) := by
  induction ts with
  | nil => intro st h; exact h
  | cons t ts ih => intro st h; rw [List.foldl_cons]; exact ih _ (keyed_token_step st t h)

/-- What a successful `get_context` returns under a constraint that requires parsing. -/
theorem get_context_ok_parsing (client : Nat) (message : Str) (k : ArgumentsConstraint)
    (c : Context) (hp : k.require_context_parsing = true)
    (h : get_context client message k = .ok c) :
    (∀ t ∈ split message, supported t = true) ∧
      (∀ t ∈ split message, ∀ n ∈ introduced_names t, accepted k n) ∧
      c = ⟨message, split message, ((split message).foldl token_step ⟨[], [], none⟩).args,
        ((split message).foldl token_step ⟨[], [], none⟩).kwargs, client, k⟩ := by
  obtain ⟨st, hst, _, hc⟩ := get_context_ok client message k c h
  rw [hp] at hst
  simp only [if_true] at hst
  obtain ⟨hs, hn, hfold⟩ := scan_tokens_ok k (split message) _ st hst
  subst hfold
  exact ⟨hs, hn, hc⟩

/-- C2: in a context returned by `get_context` under a constraint that requires parsing, a flag
token `f` (`--name`, or `-c` with `c` a lowercase letter) that is introduced only once, followed
by the tokens `vs` that do not begin with `-` up to the next token beginning with `-` or the end,
has the value list `f :: vs`; and every key of `kwargs` begins with `-` and is the first entry of
its own non-empty value list. -/
theorem get_context_kwargs_flag_values (client : Nat) (message : Str)
    (k : ArgumentsConstraint) (c : Context) (hp : k.require_context_parsing = true)
    (h : get_context client message k = .ok c) :
    (∀ (p vs rest : List Str) (f : Str), c.tokens = p ++ [f] ++ vs ++ rest →
        is_flag_token f = true → (∀ v ∈ vs, begins_with_dash v = false) →
        (∀ r ∈ rest.head?, begins_with_dash r = true) →
        (∀ t ∈ p ++ rest, f ∉ introduced_names t) →
        c.kwargs.lookup f = some (f :: vs)) ∧
      (∀ e ∈ c.kwargs, begins_with_dash e.1 = true ∧ e.2 ≠ [] ∧ e.2.head? = some e.1) := by
  obtain ⟨hs, _, hc⟩ := get_context_ok_parsing client message k c hp h
  subst hc
  refine ⟨fun p vs rest f hshape hf hvs hrest hintro => ?_, fun e he => ?_⟩
  · simp only at hshape ⊢
    rw [hshape] at hs ⊢
    exact foldl_token_step_flag_values p vs rest f hf hvs hrest
      (fun t ht => hs t (List.mem_append_right _ ht)) hintro
  · have hk := (keyed_foldl_token_step (split message) ⟨[], [], none⟩
      ⟨fun _ h => (by cases h), fun _ h => (by cases h)⟩).1 e he
    refine ⟨hk.1, fun h0 => ?_, hk.2⟩
    rw [h0] at hk
    cases hk.2

/-- C2, at the message of the doc comment of `Context::kwargs`: `args a b -c d e -g h` gives
`-c: [-c, d, e]` and `-g: [-g, h]`. -/
theorem get_context_kwargs_flag_values_witness :
    parse_only.require_context_parsing = true ∧
      get_context 0 "args a b -c d e -g h".toList parse_only = .ok args_a_b_c_d_e_g_h ∧
      args_a_b_c_d_e_g_h.kwargs =
        [("-c".toList, ["-c".toList, "d".toList, "e".toList]),
          ("-g".toList, ["-g".toList, "h".toList])] ∧
      args_a_b_c_d_e_g_h.kwargs.lookup "-c".toList =
        some ("-c".toList :: ["d".toList, "e".toList]) ∧
      (∀ e ∈ args_a_b_c_d_e_g_h.kwargs,
        begins_with_dash e.1 = true ∧ e.2 ≠ [] ∧ e.2.head? = some e.1) :=
  ⟨rfl, by decide, rfl,
    (get_context_kwargs_flag_values 0 "args a b -c d e -g h".toList parse_only
      args_a_b_c_d_e_g_h rfl (by decide)).1
      ["args".toList, "a".toList, "b".toList] ["d".toList, "e".toList]
      ["-g".toList, "h".toList] "-c".toList (by decide) (by decide) (by decide) (by decide)
      (by decide),
    (get_context_kwargs_flag_values 0 "args a b -c d e -g h".toList parse_only
      args_a_b_c_d_e_g_h rfl (by decide)).2⟩

/-- C3, at the example of the doc comment of `Context::args`: under a parsing constraint without
checking, `args a b -c d` yields the positional arguments `[args, a, b]`, not the `[a, b]` of the
doc comment, and `cmd -ab x` yields `[cmd]`, not `[]`: the command token is kept. -/
theorem get_context_args_keep_command_token :
    ArgumentsConstraint.ofBool false = .ok parse_only ∧
      get_context 0 "cmd -ab x".toList parse_only = .ok cmd_ab_x ∧
      cmd_ab_x.args = ["cmd".toList] ∧ cmd_ab_x.args ≠ [] ∧
      get_context 0 "args a b -c d".toList parse_only = .ok args_a_b_c_d ∧
      args_a_b_c_d.args = ["args".toList, "a".toList, "b".toList] ∧
      args_a_b_c_d.args ≠ ["a".toList, "b".toList] := by
  decide

/-- Under a constraint that requires parsing, the positional arguments of a parsed context begin
with the leading command token whenever that token does not begin with `-`; `cmd -ab x` yields
`[cmd]` and `args a b -c d` yields `[args, a, b]`. -/
theorem get_context_args_head_is_command :
    (∀ (client : Nat) (message : Str) (k : ArgumentsConstraint) (c : Context),
        k.require_context_parsing = true → get_context client message k = .ok c →
        ∀ t ts, c.tokens = t :: ts → begins_with_dash t = false → c.args.head? = some t) ∧
      (get_context 0 "cmd -ab x".toList parse_only = .ok cmd_ab_x ∧
        cmd_ab_x.args = ["cmd".toList]) ∧
      (get_context 0 "args a b -c d".toList parse_only = .ok args_a_b_c_d ∧
        args_a_b_c_d.args = ["args".toList, "a".toList, "b".toList]) := by
  refine ⟨fun client message k c hp h t ts htok hd => ?_, by decide, by decide⟩
  obtain ⟨hs, _, hc⟩ := get_context_ok_parsing client message k c hp h
  subst hc
  simp only at htok ⊢
  rw [htok] at hs ⊢
  rw [foldl_token_step_args_of_none (t :: ts) _ rfl hs]
  simp [hd]

/-- The head of the positional arguments at the message `cmd -ab x`. -/
theorem get_context_args_head_is_command_witness :
    parse_only.require_context_parsing = true ∧
      get_context 0 "cmd -ab x".toList parse_only = .ok cmd_ab_x ∧
      cmd_ab_x.tokens = "cmd".toList :: ["-ab".toList, "x".toList] ∧
      begins_with_dash "cmd".toList = false ∧
      cmd_ab_x.args.head? = some "cmd".toList :=
  ⟨rfl, by decide, rfl, rfl,
    get_context_args_head_is_command.1 0 "cmd -ab x".toList parse_only cmd_ab_x rfl
      (by decide) "cmd".toList ["-ab".toList, "x".toList] rfl rfl⟩

/-! ## Bundled short flags -/

/-- The classification of `get_context` depends on the message through its tokens only. -/
theorem classification_get_context (client : Nat) (message : Str)
    (k : ArgumentsConstraint) :
    classification (get_context client message k) = classify k (split message) := by
  unfold get_context classify
  simp only
  split
  · rfl
  · split
    · split
      · rfl
      · split <;> rfl
    · rfl

theorem key_of_mem_map_push_back {V : Type} (k : Str) (v : V) (m : List (Str × List V))
    (e : Str × List V) (he : e ∈ map_push_back k v m) : e.1 = k ∨ ∃ e' ∈ m, e'.1 = e.1 := by
  rcases mem_map_push_back k v m e he with h | ⟨vs, _, h⟩ | ⟨h, _⟩
  · exact Or.inr ⟨e, h, rfl⟩
  · exact Or.inl (by rw [h])
  · exact Or.inl (by rw [h])

/-- A property of flag names that holds of the keys and of the current parameter before a token
holds of them after it, when it holds of the names the token introduces. -/
theorem keys_token_step (P : Str → Prop) (st : ScanState) (t : Str)
    (hk : ∀ e ∈ st.kwargs, P e.1) (hcur : ∀ p, st.current_parameter = some p → P p)
    (hn : ∀ n ∈ introduced_names t, P n) :
    (∀ e ∈ (token_step st t).kwargs, P e.1) ∧
      ∀ p, (token_step st t).current_parameter = some p → P p := by
  unfold token_step
  split
  · generalize introduced_names t = names at hn
    induction names generalizing st with
    | nil => exact ⟨hk, hcur⟩
    | cons n names ih =>
      rw [List.foldl_cons]
      refine ih (flag_step st n) (fun e he => ?_) (fun p hp => ?_)
        (fun m hm => hn m (List.mem_cons_of_mem _ hm))
      · rcases key_of_mem_map_push_back n n st.kwargs e he with h | ⟨e', he', h⟩
        · rw [h]; exact hn n (List.mem_cons_self _ _)
        · rw [← h]; exact hk e' he'
      · have : n = p := by simpa [flag_step] using hp
        exact this ▸ hn n (List.mem_cons_self _ _)
  · obtain ⟨a, kw, cur⟩ := st
    cases cur with
    | none => exact ⟨hk, hcur⟩
    | some q =>
      refine ⟨fun e he => ?_, hcur⟩
      rcases key_of_mem_map_push_back q t kw e he with h | ⟨e', he', h⟩
      · rw [h]; exact hcur q rfl
      · rw [← h]; exact hk e' he'

theorem keys_foldl_token_step (P : Str → Prop) (ts : List Str) :
    ∀ st : ScanState, (∀ e ∈ st.kwargs, P e.1) → (∀ p, st.current_parameter = some p → P p) →
      (∀ t ∈ ts, ∀ n ∈ introduced_names t, P n) →
      ∀ e ∈ (ts.foldl token_step st).kwargs, P e.1 := by
  induction ts with
  | nil => intro st hk _ _; exact hk
  | cons t ts ih =>
    intro st hk hcur hn
    obtain ⟨h1, h2⟩ := keys_token_step P st t hk hcur (hn t (List.mem_cons_self _ _))
    rw [List.foldl_cons]
    exact ih _ h1 h2 (fun u hu => hn u (List.mem_cons_of_mem _ hu))

/-- C5: under a constraint with checking enabled, `get_context` fails on every message with a
token that introduces an unregistered flag name, so the keys of `kwargs` of a returned context
are all registered; `cmd -q` fails with an unknown-argument error under every checking
constraint that does not register `-q`, and succeeds with `-q: [-q]` under every parsing
constraint without checking. -/
theorem get_context_unknown_flag :
    (∀ (client : Nat) (message : Str) (k : ArgumentsConstraint),
        k.require_context_parsing = true → k.arguments_checking = true →
        (∃ t ∈ split message, ∃ n ∈ introduced_names t, k.has_argument n = false) →
        ∃ e, get_context client message k = .error e) ∧
      (∀ (client : Nat) (message : Str) (k : ArgumentsConstraint) (c : Context),
        k.require_context_parsing = true → k.arguments_checking = true →
        get_context client message k = .ok c → ∀ e ∈ c.kwargs, k.has_argument e.1 = true) ∧
      (∀ (client : Nat) (k : ArgumentsConstraint),
        k.require_context_parsing = true → k.arguments_checking = true →
        k.has_argument "-q".toList = false →
        get_context client "cmd -q".toList k = .error (.unknownArgument "-q".toList)) ∧
      (∀ (client : Nat) (k : ArgumentsConstraint),
        k.require_context_parsing = true → k.arguments_checking = false →
        get_context client "cmd -q".toList k =
          .ok ⟨"cmd -q".toList, ["cmd".toList, "-q".toList], ["cmd".toList],
            [("-q".toList, ["-q".toList])], client, k⟩) := by
  have hsplit : split "cmd -q".toList = ["cmd".toList, "-q".toList] := by decide
  refine ⟨fun client message k hp hc hbad => ?_, fun client message k c hp hc h e he => ?_,
    fun client k hp hc hq => ?_, fun client k hp hc => ?_⟩
  · cases hres : get_context client message k with
    | error e => exact ⟨e, rfl⟩
    | ok c =>
      obtain ⟨t, ht, n, hn, hfalse⟩ := hbad
      obtain ⟨_, hacc, _⟩ := get_context_ok_parsing client message k c hp hres
      rw [hacc t ht n hn hc] at hfalse
      cases hfalse
  · obtain ⟨_, hacc, hctx⟩ := get_context_ok_parsing client message k c hp h
    subst hctx
    exact keys_foldl_token_step (fun n => k.has_argument n = true) (split message)
      ⟨[], [], none⟩ (fun _ h => (by cases h)) (fun _ h => (by cases h))
      (fun t ht n hn => hacc t ht n hn hc) e he
  · have hq' : k.has_argument ['-', 'q'] = false := hq
    unfold get_context
    rw [hsplit]
    simp [hp, hc, hq', scan_tokens, scan_token, add_token, add_short_flags]
  · unfold get_context
    rw [hsplit]
    simp [hp, hc, scan_tokens, scan_token, add_token, add_short_flags, map_push_back]

/-- C5, at the constraints that register only `-v`: `cmd -q` fails with checking and succeeds
without. -/
theorem get_context_unknown_flag_witness :
    (∃ k0, ArgumentsConstraint.ofBounds 1 2 = .ok k0 ∧
        k0.add_argument "-v".toList "verbose".toList 0 0 true = (.ok (), checked_v)) ∧
      (parse_only.add_argument "-v".toList "verbose".toList 0 0 true =
        (.ok (), unchecked_v)) ∧
      checked_v.has_argument "-v".toList = true ∧
      checked_v.has_argument "-q".toList = false ∧
      get_context 0 "cmd -q".toList checked_v = .error (.unknownArgument "-q".toList) ∧
      get_context 0 "cmd -q".toList unchecked_v =
        .ok ⟨"cmd -q".toList, ["cmd".toList, "-q".toList], ["cmd".toList],
          [("-q".toList, ["-q".toList])], 0, unchecked_v⟩ :=
  ⟨⟨_, rfl, by decide⟩, by decide, by decide, by decide,
    get_context_unknown_flag.2.2.1 0 checked_v rfl rfl (by decide),
    get_context_unknown_flag.2.2.2 0 unchecked_v rfl rfl⟩

/-! ## Positional bounds -/

theorem add_argument_flags (c : ArgumentsConstraint) (name help : Str) (lower upper : Nat)
    (group : Bool) :
    (c.add_argument name help lower upper group).2.require_context_parsing =
        c.require_context_parsing ∧
      (c.add_argument name help lower upper group).2.arguments_checking =
        c.arguments_checking ∧
      (c.add_argument name help lower upper group).2.args_bounds = c.args_bounds := by
  unfold ArgumentsConstraint.add_argument
  split
  · exact ⟨rfl, rfl, rfl⟩
  · split
    · exact ⟨rfl, rfl, rfl⟩
    · split
      · exact ⟨rfl, rfl, rfl⟩
      · split <;> exact ⟨rfl, rfl, rfl⟩

theorem add_each_flags (help : Str) (lower upper : Nat) (names : List Str) :
    ∀ c : ArgumentsConstraint,
      (ArgumentsConstraint.add_each help lower upper c names).2.require_context_parsing =
          c.require_context_parsing ∧
        (ArgumentsConstraint.add_each help lower upper c names).2.arguments_checking =
          c.arguments_checking ∧
        (ArgumentsConstraint.add_each help lower upper c names).2.args_bounds =
          c.args_bounds := by
  induction names with
  | nil => intro c; exact ⟨rfl, rfl, rfl⟩
  | cons n names ih =>
    intro c
    have h := add_argument_flags c n help lower upper false
    unfold ArgumentsConstraint.add_each
    cases hadd : c.add_argument n help lower upper false with
    | mk r c' =>
      rw [hadd] at h
      cases r with
      | error e => exact h
      | ok u =>
        obtain ⟨h1, h2, h3⟩ := ih c'
        exact ⟨h1.trans h.1, h2.trans h.2.1, h3.trans h.2.2⟩

theorem add_argument_aliases_flags (c : ArgumentsConstraint) (aliases : List Str) (help : Str)
    (lower upper : Nat) :
    (c.add_argument_aliases aliases help lower upper).2.require_context_parsing =
        c.require_context_parsing ∧
      (c.add_argument_aliases aliases help lower upper).2.arguments_checking =
        c.arguments_checking ∧
      (c.add_argument_aliases aliases help lower upper).2.args_bounds = c.args_bounds := by
  unfold ArgumentsConstraint.add_argument_aliases
  split
  · exact ⟨rfl, rfl, rfl⟩
  · exact add_each_flags help lower upper aliases _

theorem create_ok_flags (p a : Bool) (b : Nat × Nat) (c : ArgumentsConstraint)
    (h : ArgumentsConstraint.create p a b = .ok c) :
    c.require_context_parsing = p ∧ c.arguments_checking = a ∧ c.args_bounds = b := by
  unfold ArgumentsConstraint.create at h
  split at h
  · split at h
    · cases h
    · split at h
      · cases h
      · cases h; exact ⟨rfl, rfl, rfl⟩
  · cases h; exact ⟨rfl, rfl, rfl⟩

/-- A constraint that checks arguments requires parsing: the public constructors build no other,
and registration does not change the two flags. -/
theorem Reachable.parsing_of_checking {k : ArgumentsConstraint} (h : Reachable k) :
    k.arguments_checking = true → k.require_context_parsing = true := by
  induction h with
  | default h =>
    obtain ⟨_, h2, _⟩ := create_ok_flags _ _ _ _ h
    intro h'; rw [h2] at h'; cases h'
  | ofBool b h =>
    unfold ArgumentsConstraint.ofBool at h
    cases hc : ArgumentsConstraint.create true false (0, 0) with
    | error e => rw [hc] at h; cases h
    | ok c0 =>
      rw [hc] at h
      obtain ⟨_, h2, _⟩ := create_ok_flags _ _ _ _ hc
      cases b with
      | true => cases h
      | false =>
        simp only [Bool.false_eq_true, if_false, Outcome.ok.injEq] at h
        subst h
        intro h'; rw [h2] at h'; cases h'
  | ofBounds lower upper h =>
    obtain ⟨h1, _, _⟩ := create_ok_flags _ _ _ _ h
    intro _; exact h1
  | add_argument name help lower upper group _ ih =>
    obtain ⟨h1, h2, _⟩ := add_argument_flags _ name help lower upper group
    rw [h1, h2]; exact ih
  | add_argument_aliases aliases help lower upper _ ih =>
    obtain ⟨h1, h2, _⟩ := add_argument_aliases_flags _ aliases help lower upper
    rw [h1, h2]; exact ih

/-- C7: under a constraint that does not require parsing, `get_context` never fails and returns
the context with the message, its tokens, and empty positional and keyword arguments, whatever
the tokens are. -/
theorem get_context_no_parsing (client : Nat) (message : Str) (k : ArgumentsConstraint)
    (hr : Reachable k) (hp : k.require_context_parsing = false) :
    get_context client message k = .ok ⟨message, split message, [], [], client, k⟩ := by
  have hc : k.arguments_checking = false := by
    cases h : k.arguments_checking with
    | false => rfl
    | true => rw [hr.parsing_of_checking h] at hp; cases hp
  unfold get_context
  simp [hp, hc]

/-- C7, at the default-constructed constraint and a message with a bare `-`, a malformed bundle
and a flag. -/
theorem get_context_no_parsing_witness :
    ArgumentsConstraint.default = .ok no_parsing ∧ Reachable no_parsing ∧
      no_parsing.require_context_parsing = false ∧
      get_context 7 "cmd - -aB --x y".toList no_parsing =
        .ok ⟨"cmd - -aB --x y".toList,
          ["cmd".toList, "-".toList, "-aB".toList, "--x".toList, "y".toList], [], [], 7,
          no_parsing⟩ :=
  ⟨rfl, Reachable.default rfl, rfl,
    get_context_no_parsing 7 "cmd - -aB --x y".toList no_parsing (Reachable.default rfl) rfl⟩

/-! ## Unsupported input -/

/-- C8: under a constraint that requires parsing, checking or not, `get_context` fails on every
message with a token equal to `-`, or a token that begins with a single `-` and has after it a
character that is not a lowercase letter. -/
theorem get_context_unsupported_fails (client : Nat) (message : Str)
    (k : ArgumentsConstraint) (hp : k.require_context_parsing = true) (t : Str)
    (ht : t ∈ split message)
    (hbad : t = ['-'] ∨
      ∃ c rest, t = '-' :: c :: rest ∧ c ≠ '-' ∧ ∃ x ∈ c :: rest, is_lower x = false) :
    ∃ e, get_context client message k = .error e := by
  cases hres : get_context client message k with
  | error e => exact ⟨e, rfl⟩
  | ok ctx =>
    obtain ⟨hs, _, _⟩ := get_context_ok_parsing client message k ctx hp hres
    have hst := hs t ht
    rcases hbad with h | ⟨c, rest, h, hc, x, hx, hlow⟩
    · subst h; cases hst
    · subst h
      simp only [supported, hc, if_true, if_false, List.all_eq_true] at hst
      rw [hst x hx] at hlow
      cases hlow

/-- C8, at the messages `cmd - x` and `cmd -aB x`, with and without checking. -/
theorem get_context_unsupported_fails_witness :
    parse_only.require_context_parsing = true ∧
      "-aB".toList ∈ split "cmd -aB x".toList ∧
      get_context 0 "cmd - x".toList parse_only = .error .inputPipe ∧
      get_context 0 "cmd -aB x".toList parse_only =
        .error (.unsupportedOption "-B".toList) ∧
      get_context 0 "cmd -v -".toList checked_v = .error .inputPipe ∧
      (∃ e, get_context 0 "cmd -aB x".toList parse_only = .error e) :=
  ⟨rfl, by decide, by decide, by decide, by decide,
    get_context_unsupported_fails 0 "cmd -aB x".toList parse_only rfl "-aB".toList (by decide)
      (Or.inr ⟨'a', ['B'], rfl, by decide, 'B', by decide, by decide⟩)⟩

/-! ## The tokenizer and the background marker -/

theorem split_append_singleton (l : Str) (a : Char) :
    split (l ++ [a]) = split_finish (split_step (l.foldl split_step ([], [])) a) := by
  simp [split, List.foldl_append]

theorem split_finish_split_step_space (s : List Str × Str) (a : Char)
    (ha : is_space a = true) : split_finish (split_step s a) = split_finish s := by
  unfold split_step split_finish
  by_cases h : s.2 = [] <;> simp [ha, h]

theorem split_finish_split_step_char (s : List Str × Str) (a : Char)
    (ha : is_space a = false) : split_finish (split_step s a) = s.1 ++ [s.2 ++ [a]] := by
  unfold split_step split_finish
  simp [ha]

/-- A message whose last token is the marker `%` is a message cut before a `%`, that `%`, and
whitespace only; the tokens of the part before the `%` are the tokens without the last. -/
theorem split_getLast?_marker (m : Str) :
    (split m).getLast? = some ['%'] →
      ∃ pre ws, m = pre ++ '%' :: ws ∧ (∀ c ∈ ws, is_space c = true) ∧
        split pre = (split m).dropLast := by
  induction m using List.reverseRecOn with
  | nil => intro h; cases h
  | append_singleton l a ih =>
    intro h
    rw [split_append_singleton] at h ⊢
    by_cases ha : is_space a = true
    · rw [split_finish_split_step_space _ a ha] at h ⊢
      obtain ⟨pre, ws, h1, h2, h3⟩ := ih h
      refine ⟨pre, ws ++ [a], by rw [h1]; simp, fun c hc => ?_, h3⟩
      rcases List.mem_append.mp hc with hc | hc
      · exact h2 c hc
      · rw [List.mem_singleton.mp hc]; exact ha
    · have ha' : is_space a = false := by simpa using ha
      rw [split_finish_split_step_char _ a ha'] at h ⊢
      rw [List.getLast?_concat] at h
      have hcur : (l.foldl split_step ([], [])).2 ++ [a] = ['%'] := by simpa using h
      have hlen := congrArg List.length hcur
      simp only [List.length_append, List.length_singleton, add_left_eq_self,
        List.length_eq_zero] at hlen
      rw [hlen] at hcur
      have haeq : a = '%' := by simpa using hcur
      refine ⟨l, [], by rw [haeq], fun c hc => (by cases hc), ?_⟩
      rw [List.dropLast_concat]
      simp [split, split_finish, hlen]

theorem scan_back_marker (pre ws : Str) (hws : ∀ c ∈ ws, is_space c = true) :
    Context.scan_back (pre ++ '%' :: ws) (pre ++ '%' :: ws).length = some (pre.length + 1) := by
  have key : ∀ j, j ≤ ws.length →
      Context.scan_back (pre ++ '%' :: ws) (pre.length + 1 + j) = some (pre.length + 1) := by
    intro j
    induction j with
    | zero =>
      intro _
      show Context.scan_back (pre ++ '%' :: ws) (pre.length + 1) = _
      have hget : (pre ++ '%' :: ws)[pre.length]? = some '%' := by
        rw [List.getElem?_append_right (le_refl _)]
        simp
      simp only [Context.scan_back, hget, BACKGROUND_SUFFIX, if_true]
    | succ j ih =>
      intro hj
      show Context.scan_back (pre ++ '%' :: ws) ((pre.length + 1 + j) + 1) = _
      have hj' : j < ws.length := hj
      have hget : (pre ++ '%' :: ws)[pre.length + 1 + j]? = some ws[j] := by
        rw [List.getElem?_append_right (by omega)]
        have : pre.length + 1 + j - pre.length = j + 1 := by omega
        rw [this, List.getElem?_cons_succ, List.getElem?_eq_getElem hj']
      have hne : ws[j] ≠ '%' := by
        intro he
        have := hws ws[j] (List.getElem_mem _)
        rw [he] at this
        revert this
        decide
      simp only [Context.scan_back, hget, BACKGROUND_SUFFIX, Option.some.injEq, hne, if_false]
      exact ih (by omega)
  have hlen : (pre ++ '%' :: ws).length = pre.length + 1 + ws.length := by
    simp only [List.length_append, List.length_cons]
    omega
  rw [hlen]
  exact key ws.length (le_refl _)

theorem get_context_fields (client : Nat) (message : Str) (k : ArgumentsConstraint)
    (c : Context) (h : get_context client message k = .ok c) :
    c.message = message ∧ c.tokens = split message ∧ c.client = client ∧ c.constraint = k := by
  obtain ⟨st, _, _, hc⟩ := get_context_ok client message k c h
  subst hc
  exact ⟨rfl, rfl, rfl, rfl⟩

theorem strip_background_request_eq (c : Context) (pre ws : Str)
    (hm : c.message = pre ++ '%' :: ws) (hws : ∀ x ∈ ws, is_space x = true)
    (hb : c.is_background_request = true) :
    c.strip_background_request = get_context c.client pre c.constraint := by
  unfold Context.strip_background_request
  rw [hb, hm, scan_back_marker pre ws hws]
  simp

/-- C9: for a context returned by `get_context` whose last token is the marker `%`, the backward
scan of `strip_background_request` stops at the last `%` of the message, inside the message, and
the call is `get_context` on the message cut before that `%`, under the same constraint; when it
succeeds the tokens of the result are the tokens of the context without the last. -/
theorem strip_background_request_marked (client : Nat) (message : Str)
    (k : ArgumentsConstraint) (c : Context) (h : get_context client message k = .ok c)
    (hb : c.is_background_request = true) :
    ∃ size, Context.scan_back message message.length = some size ∧
      0 < size ∧ size ≤ message.length ∧
      message[size - 1]? = some BACKGROUND_SUFFIX ∧
      (∀ i, size ≤ i → message[i]? ≠ some BACKGROUND_SUFFIX) ∧
      c.strip_background_request = get_context client (message.take (size - 1)) k ∧
      split (message.take (size - 1)) = c.tokens.dropLast ∧
      ∀ c', c.strip_background_request = .ok c' →
        c'.message = message.take (size - 1) ∧ c'.tokens = c.tokens.dropLast ∧
          c'.constraint = k := by
  obtain ⟨hmsg, htok, hcl, hk⟩ := get_context_fields client message k c h
  have hlast : (split message).getLast? = some ['%'] := by
    have := hb
    simp only [Context.is_background_request, Bool.and_eq_true, decide_eq_true_eq] at this
    rw [← htok]
    exact this.2
  obtain ⟨pre, ws, hpre, hws, hsplit⟩ := split_getLast?_marker message hlast
  have hstrip := strip_background_request_eq c pre ws (hmsg.trans hpre) hws hb
  rw [hcl, hk] at hstrip
  have htake : message.take (pre.length + 1 - 1) = pre := by
    rw [hpre]; simp
  refine ⟨pre.length + 1, ?_, Nat.succ_pos _, ?_, ?_, ?_, ?_, ?_, ?_⟩
  · rw [hpre]; exact scan_back_marker pre ws hws
  · rw [hpre]; simp only [List.length_append, List.length_cons]; omega
  · rw [hpre, Nat.add_sub_cancel, List.getElem?_append_right (le_refl _)]
    simp [BACKGROUND_SUFFIX]
  · intro i hi hget
    rw [hpre, List.getElem?_append_right (by omega)] at hget
    obtain ⟨j, hj⟩ : ∃ j, i - pre.length = j + 1 := ⟨i - pre.length - 1, by omega⟩
    rw [hj, List.getElem?_cons_succ] at hget
    have hmem := hws _ (List.getElem?_mem hget)
    revert hmem
    decide
  · rw [htake]; exact hstrip
  · rw [htake, htok]; exact hsplit
  · intro c' hc'
    rw [hstrip] at hc'
    obtain ⟨h1, h2, _, h4⟩ := get_context_fields client pre k c' hc'
    rw [htake, htok]
    exact ⟨h1, h2.trans hsplit, h4⟩

/-- C9, at the message `cmd -v % ` under the checking constraint that registers `-v`. -/
theorem strip_background_request_marked_witness :
    get_context 0 "cmd -v % ".toList checked_v = .ok cmd_v_marked ∧
      cmd_v_marked.is_background_request = true ∧
      cmd_v_marked.strip_background_request =
        .ok ⟨"cmd -v ".toList, ["cmd".toList, "-v".toList], ["cmd".toList],
          [("-v".toList, ["-v".toList])], 0, checked_v⟩ ∧
      ∃ size, Context.scan_back "cmd -v % ".toList "cmd -v % ".toList.length = some size ∧
        0 < size ∧ size ≤ "cmd -v % ".toList.length ∧
        "cmd -v % ".toList[size - 1]? = some BACKGROUND_SUFFIX ∧
        (∀ i, size ≤ i → "cmd -v % ".toList[i]? ≠ some BACKGROUND_SUFFIX) ∧
        cmd_v_marked.strip_background_request =
          get_context 0 ("cmd -v % ".toList.take (size - 1)) checked_v ∧
        split ("cmd -v % ".toList.take (size - 1)) = cmd_v_marked.tokens.dropLast ∧
        ∀ c', cmd_v_marked.strip_background_request = .ok c' →
          c'.message = "cmd -v % ".toList.take (size - 1) ∧
            c'.tokens = cmd_v_marked.tokens.dropLast ∧ c'.constraint = checked_v :=
  ⟨by decide, by decide, by decide,
    strip_background_request_marked 0 "cmd -v % ".toList checked_v cmd_v_marked (by decide)
      (by decide)⟩

/-- C10, refuted: stripping the context of `cmd %` gives the message `cmd ` with its trailing
space, not `cmd`. -/
theorem strip_background_request_leaves_separator :
    get_context 0 "cmd %".toList parse_only = .ok cmd_marked ∧
      cmd_marked.is_background_request = true ∧
      cmd_marked.strip_background_request =
        .ok ⟨"cmd ".toList, ["cmd".toList], ["cmd".toList], [], 0, parse_only⟩ ∧
      cmd_marked.strip_background_request ≠
        .ok ⟨"cmd".toList, ["cmd".toList], ["cmd".toList], [], 0, parse_only⟩ ∧
      "cmd ".toList ≠ "cmd".toList := by
  decide

/-- C10, amended: for a context returned by `get_context` on a message that ends in a character
`s`, a separator in particular, followed by the marker `%`, with `%` its last token,
`strip_background_request` is `get_context` on the message without the trailing `%`, and the
message of the stripped context is the original message with the trailing `%` removed and the
character `s` before it kept. -/
theorem strip_background_request_message (client : Nat) (pre : Str) (s : Char)
    (k : ArgumentsConstraint) (c : Context)
    (h : get_context client (pre ++ [s, '%']) k = .ok c)
    (hb : c.is_background_request = true) :
    c.strip_background_request = get_context client (pre ++ [s]) k ∧
      ∀ c', c.strip_background_request = .ok c' → c'.message = pre ++ [s] := by
  obtain ⟨hmsg, _, hcl, hk⟩ := get_context_fields client _ k c h
  have hstrip := strip_background_request_eq c (pre ++ [s]) [] (by rw [hmsg]; simp)
    (fun _ hx => (by cases hx)) hb
  rw [hcl, hk] at hstrip
  refine ⟨hstrip, fun c' hc' => ?_⟩
  rw [hstrip] at hc'
  exact (get_context_fields client _ k c' hc').1

/-- C10 amended, at the message `cmd %`: the stripped message is `cmd ` with its space. -/
theorem strip_background_request_message_witness :
    is_space ' ' = true ∧
      get_context 0 ("cmd".toList ++ [' ', '%']) parse_only = .ok cmd_marked ∧
      cmd_marked.is_background_request = true ∧
      cmd_marked.strip_background_request =
        get_context 0 ("cmd".toList ++ [' ']) parse_only ∧
      ∀ c', cmd_marked.strip_background_request = .ok c' →
        c'.message = "cmd".toList ++ [' '] :=
  ⟨by decide, by decide, by decide,
    strip_background_request_message 0 "cmd".toList ' ' parse_only cmd_marked (by decide)
      (by decide)⟩

/-! ## Copies and re-parsing -/

theorem strip_background_request_of_not_marked (c : Context)
    (h : c.is_background_request = false) : c.strip_background_request = .ok c.copy := by
  unfold Context.strip_background_request
  rw [h]
  rfl

/-- C11: `copy` returns a context with the same message, tokens, positional arguments, keyword
arguments, client and constraint; and on a context that is not a background request
`strip_background_request` does not fail and returns such a copy. -/
theorem copy_same_content (c : Context) :
    (c.copy.message = c.message ∧ c.copy.tokens = c.tokens ∧ c.copy.args = c.args ∧
        c.copy.kwargs = c.kwargs ∧ c.copy.client = c.client ∧
        c.copy.constraint = c.constraint) ∧
      (c.is_background_request = false →
        ∃ c', c.strip_background_request = .ok c' ∧ c'.message = c.message ∧
          c'.tokens = c.tokens ∧ c'.args = c.args ∧ c'.kwargs = c.kwargs) :=
  ⟨⟨rfl, rfl, rfl, rfl, rfl, rfl⟩,
    fun h => ⟨c.copy, strip_background_request_of_not_marked c h, rfl, rfl, rfl, rfl⟩⟩

/-- C11, at the context of `args a b -c d`, which is not a background request. -/
theorem copy_same_content_witness :
    args_a_b_c_d.copy = args_a_b_c_d ∧ args_a_b_c_d.is_background_request = false ∧
      ∃ c', args_a_b_c_d.strip_background_request = .ok c' ∧
        c'.message = args_a_b_c_d.message ∧ c'.tokens = args_a_b_c_d.tokens ∧
        c'.args = args_a_b_c_d.args ∧ c'.kwargs = args_a_b_c_d.kwargs :=
  ⟨rfl, by decide, (copy_same_content args_a_b_c_d).2 (by decide)⟩

/-- C14: `get_context` is a function of the client, the message and the constraint; a context it
returns is returned again by `parse` under the same constraint, and `parse` under any constraint
is `get_context` on the message of the context. -/
theorem parse_round_trip (client : Nat) (message : Str) (k : ArgumentsConstraint)
    (c : Context) (h : get_context client message k = .ok c) :
    (∀ c2, get_context client message k = .ok c2 → c2 = c) ∧
      c.parse k = .ok c ∧
      (∀ k2, c.parse k2 = get_context client message k2) ∧
      (∀ k2, c.parse k2 = get_context c.client c.message k2) := by
  obtain ⟨hm, _, hcl, _⟩ := get_context_fields client message k c h
  refine ⟨fun c2 h2 => ?_, ?_, fun k2 => ?_, fun k2 => rfl⟩
  · rw [h] at h2
    exact (Outcome.ok.inj h2).symm
  · unfold Context.parse
    rw [hm, hcl]
    exact h
  · unfold Context.parse
    rw [hm, hcl]

/-- C14, at the message `args a b -c d`, re-parsed under the same and a checking constraint. -/
theorem parse_round_trip_witness :
    get_context 0 "args a b -c d".toList parse_only = .ok args_a_b_c_d ∧
      args_a_b_c_d.parse parse_only = .ok args_a_b_c_d ∧
      args_a_b_c_d.parse checked_v = .error (.unknownArgument "-c".toList) ∧
      (∀ k2, args_a_b_c_d.parse k2 = get_context 0 "args a b -c d".toList k2) :=
  ⟨by decide,
    (parse_round_trip 0 "args a b -c d".toList parse_only args_a_b_c_d (by decide)).2.1,
    by decide,
    (parse_round_trip 0 "args a b -c d".toList parse_only args_a_b_c_d (by decide)).2.2.1⟩

/-! ## Replacing the command token -/

theorem split_state_length_le (l : Str) :
    (∀ t ∈ (l.foldl split_step ([], [])).1, t.length ≤ l.length) ∧
      (l.foldl split_step ([], [])).2.length ≤ l.length := by
  induction l using List.reverseRecOn with
  | nil => exact ⟨fun _ h => (by cases h), le_refl _⟩
  | append_singleton l a ih =>
    rw [List.foldl_append, List.foldl_cons, List.foldl_nil]
    generalize l.foldl split_step ([], []) = st at ih
    obtain ⟨ih1, ih2⟩ := ih
    have hlen : (l ++ [a]).length = l.length + 1 := by simp
    rw [hlen]
    unfold split_step
    by_cases ha : is_space a = true
    · by_cases hcur : st.2 = []
      · simp only [ha, hcur, if_true]
        exact ⟨fun t ht => Nat.le_succ_of_le (ih1 t ht), Nat.zero_le _⟩
      · simp only [ha, hcur, if_true, if_false]
        refine ⟨fun t ht => ?_, Nat.zero_le _⟩
        rcases List.mem_append.mp ht with ht | ht
        · exact Nat.le_succ_of_le (ih1 t ht)
        · rw [List.mem_singleton.mp ht]; exact Nat.le_succ_of_le ih2
    · simp only [ha, Bool.false_eq_true, if_false]
      refine ⟨fun t ht => Nat.le_succ_of_le (ih1 t ht), ?_⟩
      simp only [List.length_append, List.length_singleton]
      omega

/-- No token is longer than the message it is cut from. -/
theorem length_le_of_mem_split (m t : Str) (h : t ∈ split m) : t.length ≤ m.length := by
  obtain ⟨h1, h2⟩ := split_state_length_le m
  unfold split split_finish at h
  split at h
  · exact h1 t h
  · rcases List.mem_append.mp h with h | h
    · exact h1 t h
    · rw [List.mem_singleton.mp h]; exact h2

theorem replace_call_cons (c : Context) (token first : Str) (rest : List Str)
    (ht : c.tokens = first :: rest) (hlen : first.length ≤ c.message.length) :
    c.replace_call token =
      .ok ⟨token ++ c.message.drop first.length, c.tokens.set 0 token, c.args.set 0 token,
        c.kwargs, c.client, c.constraint⟩ := by
  unfold Context.replace_call
  rw [ht]
  simp only [not_lt.mpr hlen, if_false, List.set_cons_zero]
  cases c.args <;> rfl

/-- The first token of a context the program produces is not longer than its message. -/
theorem Produced.head_length_le {c : Context} (h : Produced c) :
    ∀ first rest, c.tokens = first :: rest → first.length ≤ c.message.length := by
  induction h with
  | get_context client message k h =>
    intro first rest ht
    obtain ⟨hm, htok, _, _⟩ := get_context_fields client message k _ h
    rw [hm]
    exact length_le_of_mem_split message first (by rw [← htok, ht]; exact List.mem_cons_self _ _)
  | copy _ ih => exact ih
  | parse k _ h _ =>
    intro first rest ht
    obtain ⟨hm, htok, _, _⟩ := get_context_fields _ _ k _ h
    rw [hm]
    exact length_le_of_mem_split _ first (by rw [← htok, ht]; exact List.mem_cons_self _ _)
  | @replace_call c c' token _ h ih =>
    intro first rest ht
    cases htok : c.tokens with
    | nil => simp [Context.replace_call, htok] at h
    | cons f r =>
      rw [replace_call_cons c token f r htok (ih f r htok)] at h
      cases h
      simp only [htok, List.set_cons_zero, List.cons.injEq] at ht
      rw [← ht.1]
      simp
  | @strip_background_request c c' _ h ih =>
    intro first rest ht
    unfold Context.strip_background_request at h
    split at h
    · split at h
      · cases h
      · obtain ⟨hm, htok, _, _⟩ := get_context_fields _ _ _ _ h
        rw [hm]
        exact length_le_of_mem_split _ first
          (by rw [← htok, ht]; exact List.mem_cons_self _ _)
    · cases h
      exact ih first rest ht

/-- C12: on a context the program produces, `replace_call` fails if and only if the context has
no tokens; otherwise it returns the context whose tokens and positional arguments are the
original ones with element 0 replaced by the new token (the empty list stays empty), and whose
keyword arguments, client and constraint are unchanged. -/
theorem replace_call_spec (c : Context) (hc : Produced c) (token : Str) :
    ((c.replace_call token).failed = true ↔ c.tokens = []) ∧
      (c.tokens ≠ [] →
        ∃ c', c.replace_call token = .ok c' ∧ c'.tokens = c.tokens.set 0 token ∧
          c'.tokens.length = c.tokens.length ∧ c'.args = c.args.set 0 token ∧
          c'.kwargs = c.kwargs ∧ c'.client = c.client ∧ c'.constraint = c.constraint) := by
  cases htok : c.tokens with
  | nil =>
    refine ⟨⟨fun _ => rfl, fun _ => ?_⟩, fun h => absurd rfl h⟩
    simp [Context.replace_call, htok, Outcome.failed]
  | cons first rest =>
    have hcall := replace_call_cons c token first rest htok (hc.head_length_le first rest htok)
    rw [htok] at hcall
    refine ⟨⟨fun h => ?_, fun h => (by cases h)⟩, fun _ => ⟨_, hcall, rfl, by simp, rfl, rfl,
      rfl, rfl⟩⟩
    rw [hcall] at h
    cases h

/-- C12, at the contexts of the empty message and of `args a b -c d`. -/
theorem replace_call_spec_witness :
    Produced args_a_b_c_d ∧
      (get_context 0 [] parse_only).failed = false ∧
      (∀ c, get_context 0 [] parse_only = .ok c →
        c.replace_call "ls".toList = .error .noTokens) ∧
      args_a_b_c_d.replace_call "ls".toList =
        .ok ⟨"ls a b -c d".toList,
          ["ls".toList, "a".toList, "b".toList, "-c".toList, "d".toList],
          ["ls".toList, "a".toList, "b".toList],
          [("-c".toList, ["-c".toList, "d".toList])], 0, parse_only⟩ ∧
      ((args_a_b_c_d.replace_call "ls".toList).failed = true ↔ args_a_b_c_d.tokens = []) :=
  ⟨Produced.get_context 0 "args a b -c d".toList parse_only (by decide), by decide,
    fun c h => (by
      have : c = ⟨[], [], [], [], 0, parse_only⟩ := by
        have h' : get_context 0 [] parse_only = .ok ⟨[], [], [], [], 0, parse_only⟩ := by
          decide
        rw [h'] at h
        exact (Outcome.ok.inj h).symm
      rw [this]
      rfl),
    by decide,
    (replace_call_spec args_a_b_c_d
      (Produced.get_context 0 "args a b -c d".toList parse_only (by decide))
      "ls".toList).1⟩

/-- C13, on a message with leading whitespace: `replace_call` on the context of ` cmd x` cuts
the first three characters of the message, not the token `cmd`, and returns the message
`newd x` next to the tokens `[new, x]`; the tokens of that message are `[newd, x]`. -/
theorem replace_call_leading_whitespace :
    get_context 0 " cmd x".toList parse_only = .ok cmd_x_led ∧
      cmd_x_led.replace_call "new".toList =
        .ok ⟨"newd x".toList, ["new".toList, "x".toList], ["new".toList, "x".toList], [], 0,
          parse_only⟩ ∧
      "newd x".toList ≠ " new x".toList ∧
      split "newd x".toList = ["newd".toList, "x".toList] ∧
      split "newd x".toList ≠ ["new".toList, "x".toList] := by
  decide

/-! ## Construction of constraints -/

theorem Reachable.bounds_of_checking {k : ArgumentsConstraint} (h : Reachable k) :
    k.arguments_checking = true → 1 ≤ k.args_bounds.1 ∧ k.args_bounds.1 ≤ k.args_bounds.2 := by
  induction h with
  | default h =>
    obtain ⟨_, h2, _⟩ := create_ok_flags _ _ _ _ h
    intro h'; rw [h2] at h'; cases h'
  | ofBool b h =>
    unfold ArgumentsConstraint.ofBool at h
    cases hc : ArgumentsConstraint.create true false (0, 0) with
    | error e => rw [hc] at h; cases h
    | ok c0 =>
      rw [hc] at h
      obtain ⟨_, h2, _⟩ := create_ok_flags _ _ _ _ hc
      cases b with
      | true => cases h
      | false =>
        simp only [Bool.false_eq_true, if_false, Outcome.ok.injEq] at h
        subst h
        intro h'; rw [h2] at h'; cases h'
  | ofBounds lower upper h =>
    intro _
    unfold ArgumentsConstraint.ofBounds ArgumentsConstraint.create at h
    simp only [Bool.and_self, if_true] at h
    split at h
    · cases h
    · split at h
      · cases h
      · rename_i h1 h2
        cases h
        exact ⟨Nat.one_le_iff_ne_zero.mpr h2, not_lt.mp h1⟩
  | add_argument name help lower upper group _ ih =>
    obtain ⟨_, h2, h3⟩ := add_argument_flags _ name help lower upper group
    rw [h2, h3]; exact ih
  | add_argument_aliases aliases help lower upper _ ih =>
    obtain ⟨_, h2, h3⟩ := add_argument_aliases_flags _ aliases help lower upper
    rw [h2, h3]; exact ih

/-- C15: `ArgumentsConstraint(args_lower, args_upper)` fails if and only if
`args_lower > args_upper` or `args_lower = 0`, and otherwise requires parsing and checks
arguments; every constraint that checks arguments has `1 ≤ min ≤ max` and requires parsing; the
default constructor does not fail and gives a constraint without parsing or checking;
`ArgumentsConstraint(bool)` fails if and only if its argument is `true`, and otherwise gives
parsing without checking. -/
theorem constructors_spec :
    (∀ lower upper : Nat, (ArgumentsConstraint.ofBounds lower upper).failed = true ↔
        lower > upper ∨ lower = 0) ∧
      (∀ (lower upper : Nat) (k : ArgumentsConstraint),
        ArgumentsConstraint.ofBounds lower upper = .ok k →
        k.require_context_parsing = true ∧ k.arguments_checking = true ∧
          k.args_bounds = (lower, upper)) ∧
      (∀ k : ArgumentsConstraint, Reachable k → k.arguments_checking = true →
        1 ≤ k.args_bounds.1 ∧ k.args_bounds.1 ≤ k.args_bounds.2 ∧
          k.require_context_parsing = true) ∧
      (∃ k, ArgumentsConstraint.default = .ok k ∧ k.require_context_parsing = false ∧
        k.arguments_checking = false) ∧
      (∀ b : Bool, (ArgumentsConstraint.ofBool b).failed = true ↔ b = true) ∧
      (∃ k, ArgumentsConstraint.ofBool false = .ok k ∧ k.require_context_parsing = true ∧
        k.arguments_checking = false) := by
  refine ⟨fun lower upper => ?_, fun lower upper k h => ?_, fun k hr hc => ?_,
    ⟨no_parsing, rfl, rfl, rfl⟩, fun b => ?_, ⟨parse_only, rfl, rfl, rfl⟩⟩
  · unfold ArgumentsConstraint.ofBounds ArgumentsConstraint.create
    simp only [Bool.and_self, if_true]
    by_cases h1 : lower > upper
    · simp [h1, Outcome.failed]
    · by_cases h2 : lower = 0
      · simp [h1, h2, Outcome.failed]
      · simp [h1, h2, Outcome.failed]
  · exact create_ok_flags _ _ _ k h
  · obtain ⟨h1, h2⟩ := hr.bounds_of_checking hc
    exact ⟨h1, h2, hr.parsing_of_checking hc⟩
  · cases b <;> decide

/-- C15, at the bounds `(1, 2)`, `(2, 1)` and `(0, 3)`. -/
theorem constructors_spec_witness :
    ArgumentsConstraint.ofBounds 1 2 = .ok checked_1_2 ∧
      ArgumentsConstraint.ofBounds 2 1 = .error .boundsInverted ∧
      ArgumentsConstraint.ofBounds 0 3 = .error .lowerBoundZero ∧
      ArgumentsConstraint.ofBool true = .error .overloadNoChecking ∧
      Reachable checked_1_2 ∧ checked_1_2.arguments_checking = true ∧
      (1 ≤ checked_1_2.args_bounds.1 ∧ checked_1_2.args_bounds.1 ≤ checked_1_2.args_bounds.2 ∧
        checked_1_2.require_context_parsing = true) :=
  ⟨by decide, by decide, by decide, by decide, Reachable.ofBounds 1 2 (by decide), rfl,
    constructors_spec.2.2.1 checked_1_2 (Reachable.ofBounds 1 2 (by decide)) rfl⟩

/-! ## The registry of named arguments -/

theorem lookup_map_assign_self {V : Type} (k : Str) (v : V) (m : List (Str × V)) :
    (map_assign k v m).lookup k = some v := by
  induction m with
  | nil => simp [map_assign, lookup_cons_eq]
  | cons e m ih =>
    obtain ⟨k', v'⟩ := e
    unfold map_assign
    by_cases h : k' = k
    · simp [h, lookup_cons_eq]
    · simp [h, lookup_cons_eq, ih]

theorem lookup_map_assign_of_ne {V : Type} (k k' : Str) (v : V) (m : List (Str × V))
    (hne : k ≠ k') : (map_assign k v m).lookup k' = m.lookup k' := by
  induction m with
  | nil => simp [map_assign, lookup_cons_eq, hne]
  | cons e m ih =>
    obtain ⟨k1, v1⟩ := e
    unfold map_assign
    by_cases h : k1 = k
    · subst h; simp [lookup_cons_eq, hne]
    · simp only [h, if_false, lookup_cons_eq, ih]

theorem add_argument_of_conditions (c : ArgumentsConstraint) (name help : Str)
    (lower upper : Nat) (group : Bool) (hp : c.require_context_parsing = true)
    (hn : c.has_argument name = false) (hs : c.help.length = c.bounds.length)
    (hb : lower ≤ upper) :
    c.add_argument name help lower upper group =
      (.ok (), with_slot c name help lower upper group) := by
  have h1 : c.check_context_parsing = .ok () := by
    unfold ArgumentsConstraint.check_context_parsing
    rw [hp]
    rfl
  unfold ArgumentsConstraint.add_argument
  rw [h1]
  simp only
  rw [hn, if_neg (by decide), if_neg (not_not.mpr hs), if_neg (not_lt.mpr hb)]
  rfl

/-- A registration that throws leaves the constraint as it was; it throws, on a constraint whose
`help` and `bounds` have the same length, exactly when parsing is disabled, the name is
registered or the bounds are inverted. -/
theorem add_argument_failed (c : ArgumentsConstraint) (name help : Str) (lower upper : Nat)
    (group : Bool) (hs : c.help.length = c.bounds.length) :
    ((c.add_argument name help lower upper group).1.failed = true ↔
        c.require_context_parsing = false ∨ c.has_argument name = true ∨ lower > upper) ∧
      ((c.add_argument name help lower upper group).1.failed = true →
        (c.add_argument name help lower upper group).2 = c) := by
  by_cases hp : c.require_context_parsing = true
  · by_cases hn : c.has_argument name = true
    · have : c.add_argument name help lower upper group = (.error (.alreadyExists name), c) := by
        unfold ArgumentsConstraint.add_argument ArgumentsConstraint.check_context_parsing
        simp [hp, hn]
      rw [this]
      simp [Outcome.failed, hn]
    · have hn' : c.has_argument name = false := by simpa using hn
      by_cases hb : lower ≤ upper
      · rw [add_argument_of_conditions c name help lower upper group hp hn' hs hb]
        simp [Outcome.failed, hp, hn', not_lt.mpr hb]
      · have : c.add_argument name help lower upper group =
            (.error (.lowerAboveUpper lower upper), c) := by
          unfold ArgumentsConstraint.add_argument ArgumentsConstraint.check_context_parsing
          simp [hp, hn', hs, not_le.mp hb]
        rw [this]
        simp [Outcome.failed, not_le.mp hb]
  · have hp' : c.require_context_parsing = false := by simpa using hp
    have : c.add_argument name help lower upper group = (.error .noContextParsing, c) := by
      unfold ArgumentsConstraint.add_argument ArgumentsConstraint.check_context_parsing
      simp [hp']
    rw [this]
    simp [Outcome.failed, hp']

theorem with_slot_consistent (c : ArgumentsConstraint) (name help : Str) (lower upper : Nat)
    (group : Bool) (h : registry_consistent c) :
    registry_consistent (with_slot c name help lower upper group) := by
  refine ⟨by simp [with_slot, h.1], fun n i hi => ?_⟩
  have hlen : (with_slot c name help lower upper group).help.length = c.help.length + 1 := by
    simp [with_slot]
  rw [hlen]
  by_cases hn : name = n
  · subst hn
    simp only [with_slot, lookup_map_assign_self, Option.some.injEq] at hi
    rw [← hi]
    exact Nat.lt_succ_of_le (Nat.mod_le _ _)
  · simp only [with_slot, lookup_map_assign_of_ne name n _ c.names hn] at hi
    exact Nat.lt_succ_of_lt (h.2 n i hi)

theorem add_argument_consistent (c : ArgumentsConstraint) (name help : Str) (lower upper : Nat)
    (group : Bool) (h : registry_consistent c) :
    registry_consistent (c.add_argument name help lower upper group).2 := by
  by_cases hf : (c.add_argument name help lower upper group).1.failed = true
  · rw [(add_argument_failed c name help lower upper group h.1).2 hf]
    exact h
  · have hiff := (add_argument_failed c name help lower upper group h.1).1
    have hcond : ¬ (c.require_context_parsing = false ∨ c.has_argument name = true ∨
        lower > upper) := fun hc => hf (hiff.mpr hc)
    simp only [not_or, Bool.not_eq_false, Bool.not_eq_true, not_lt] at hcond
    rw [add_argument_of_conditions c name help lower upper group hcond.1 hcond.2.1 h.1
      hcond.2.2]
    exact with_slot_consistent c name help lower upper group h

theorem add_each_consistent (help : Str) (lower upper : Nat) (names : List Str) :
    ∀ c : ArgumentsConstraint, registry_consistent c →
      registry_consistent (ArgumentsConstraint.add_each help lower upper c names).2 := by
  induction names with
  | nil => intro c h; exact h
  | cons n names ih =>
    intro c h
    have h1 := add_argument_consistent c n help lower upper false h
    unfold ArgumentsConstraint.add_each
    cases hadd : c.add_argument n help lower upper false with
    | mk r c' =>
      rw [hadd] at h1
      cases r with
      | error e => exact h1
      | ok u => exact ih c' h1

theorem add_argument_aliases_consistent (c : ArgumentsConstraint) (aliases : List Str)
    (help : Str) (lower upper : Nat) (h : registry_consistent c) :
    registry_consistent (c.add_argument_aliases aliases help lower upper).2 := by
  unfold ArgumentsConstraint.add_argument_aliases
  split
  · exact h
  · exact add_each_consistent help lower upper aliases _ h

theorem create_ok_registry (p a : Bool) (b : Nat × Nat) (c : ArgumentsConstraint)
    (h : ArgumentsConstraint.create p a b = .ok c) :
    c.help = [] ∧ c.bounds = [] ∧ c.names = [] ∧ c.alias_groups = ∅ := by
  unfold ArgumentsConstraint.create at h
  split at h
  · split at h
    · cases h
    · split at h
      · cases h
      · cases h; exact ⟨rfl, rfl, rfl, rfl⟩
  · cases h; exact ⟨rfl, rfl, rfl, rfl⟩

theorem ofBool_ok (b : Bool) (c : ArgumentsConstraint)
    (h : ArgumentsConstraint.ofBool b = .ok c) :
    ArgumentsConstraint.create true false (0, 0) = .ok c := by
  unfold ArgumentsConstraint.ofBool at h
  cases hc : ArgumentsConstraint.create true false (0, 0) with
  | error e => rw [hc] at h; cases h
  | ok c0 =>
    rw [hc] at h
    cases b with
    | true => cases h
    | false => exact h

theorem registry_consistent_of_empty (c : ArgumentsConstraint)
    (h : c.help = [] ∧ c.bounds = [] ∧ c.names = [] ∧ c.alias_groups = ∅) :
    registry_consistent c := by
  obtain ⟨h1, h2, h3, _⟩ := h
  refine ⟨by simp [h1, h2], fun n i hi => ?_⟩
  rw [h3] at hi
  cases hi

/-- In every constraint a caller can hold, `help` and `bounds` have the same length and every
stored index is inside them. -/
theorem Reachable.registry_consistent {k : ArgumentsConstraint} (h : Reachable k) :
    registry_consistent k := by
  induction h with
  | default h => exact registry_consistent_of_empty _ (create_ok_registry _ _ _ _ h)
  | ofBool b h => exact registry_consistent_of_empty _ (create_ok_registry _ _ _ _ (ofBool_ok b _ h))
  | ofBounds lower upper h => exact registry_consistent_of_empty _ (create_ok_registry _ _ _ _ h)
  | add_argument name help lower upper group _ ih =>
    exact add_argument_consistent _ name help lower upper group ih
  | add_argument_aliases aliases help lower upper _ ih =>
    exact add_argument_aliases_consistent _ aliases help lower upper ih

theorem has_argument_with_slot_self (c : ArgumentsConstraint) (name help : Str)
    (lower upper : Nat) (group : Bool) :
    (with_slot c name help lower upper group).has_argument name = true := by
  simp [with_slot, ArgumentsConstraint.has_argument, lookup_map_assign_self]

theorem has_argument_with_slot_of_ne (c : ArgumentsConstraint) (name help : Str)
    (lower upper : Nat) (group : Bool) (n : Str) (hne : name ≠ n) :
    (with_slot c name help lower upper group).has_argument n = c.has_argument n := by
  simp [with_slot, ArgumentsConstraint.has_argument, lookup_map_assign_of_ne name n _ _ hne]

theorem get_help_with_slot_of_ne (c : ArgumentsConstraint) (name help : Str)
    (lower upper : Nat) (group : Bool) (n : Str) (hc : registry_consistent c)
    (hne : name ≠ n) :
    (with_slot c name help lower upper group).get_help n = c.get_help n := by
  unfold ArgumentsConstraint.get_help
  simp only [with_slot, lookup_map_assign_of_ne name n _ c.names hne]
  cases hl : c.names.lookup n with
  | none => rfl
  | some i =>
    simp only
    rw [List.getElem?_append_left (hc.2 n i hl)]

theorem get_bounds_with_slot_of_ne (c : ArgumentsConstraint) (name help : Str)
    (lower upper : Nat) (group : Bool) (n : Str) (hc : registry_consistent c)
    (hne : name ≠ n) :
    (with_slot c name help lower upper group).get_bounds n = c.get_bounds n := by
  unfold ArgumentsConstraint.get_bounds
  simp only [with_slot, lookup_map_assign_of_ne name n _ c.names hne]
  cases hl : c.names.lookup n with
  | none => rfl
  | some i =>
    simp only
    rw [List.getElem?_append_left (hc.1 ▸ hc.2 n i hl)]

/-- A registration that does not throw ran on a constraint with parsing, an unregistered name
and ordered bounds, and left the constraint with the new slot. -/
theorem add_argument_of_not_failed (c : ArgumentsConstraint) (name help : Str)
    (lower upper : Nat) (group : Bool) (hs : c.help.length = c.bounds.length)
    (hf : (c.add_argument name help lower upper group).1.failed = false) :
    c.require_context_parsing = true ∧ c.has_argument name = false ∧ lower ≤ upper ∧
      c.add_argument name help lower upper group =
        (.ok (), with_slot c name help lower upper group) := by
  have hiff := (add_argument_failed c name help lower upper group hs).1
  have hcond : ¬ (c.require_context_parsing = false ∨ c.has_argument name = true ∨
      lower > upper) := fun hc => by rw [hiff.mpr hc] at hf; cases hf
  simp only [not_or, Bool.not_eq_false, Bool.not_eq_true, not_lt] at hcond
  exact ⟨hcond.1, hcond.2.1, hcond.2.2,
    add_argument_of_conditions c name help lower upper group hcond.1 hcond.2.1 hs hcond.2.2⟩

/-- C16: the single-name `add_argument` fails if and only if parsing is disabled, the name is
registered or `value_min > value_max`; a failing call leaves the constraint, registry and alias
groups included, as it was; a call that succeeds appends one slot to `help` and `bounds`, makes
`has_argument(name)` true and leaves `has_argument`, `get_help` and `get_bounds` of every other
name unchanged. -/
theorem add_argument_spec (k : ArgumentsConstraint) (hr : Reachable k) (name help : Str)
    (lower upper : Nat) (group : Bool) :
    ((k.add_argument name help lower upper group).1.failed = true ↔
        k.require_context_parsing = false ∨ k.has_argument name = true ∨ lower > upper) ∧
      ((k.add_argument name help lower upper group).1.failed = true →
        (k.add_argument name help lower upper group).2 = k) ∧
      ((k.add_argument name help lower upper group).1.failed = false →
        (k.add_argument name help lower upper group).2.help = k.help ++ [help] ∧
        (k.add_argument name help lower upper group).2.bounds = k.bounds ++ [(lower, upper)] ∧
        (k.add_argument name help lower upper group).2.has_argument name = true ∧
        ∀ n, n ≠ name →
          (k.add_argument name help lower upper group).2.has_argument n = k.has_argument n ∧
          (k.add_argument name help lower upper group).2.get_help n = k.get_help n ∧
          (k.add_argument name help lower upper group).2.get_bounds n = k.get_bounds n) := by
  have hc := hr.registry_consistent
  obtain ⟨h1, h2⟩ := add_argument_failed k name help lower upper group hc.1
  refine ⟨h1, h2, fun hf => ?_⟩
  obtain ⟨_, _, _, hres⟩ := add_argument_of_not_failed k name help lower upper group hc.1 hf
  rw [hres]
  refine ⟨rfl, rfl, has_argument_with_slot_self k name help lower upper group, fun n hn => ?_⟩
  exact ⟨has_argument_with_slot_of_ne k name help lower upper group n (Ne.symm hn),
    get_help_with_slot_of_ne k name help lower upper group n hc (Ne.symm hn),
    get_bounds_with_slot_of_ne k name help lower upper group n hc (Ne.symm hn)⟩

/-- C16, at the registration of `-q` on the constraint that registers `-v`, and at the three
ways to fail. -/
theorem add_argument_spec_witness :
    Reachable unchecked_v ∧
      (no_parsing.add_argument "-v".toList "verbose".toList 0 0 true).1 =
        .error .noContextParsing ∧
      (unchecked_v.add_argument "-v".toList "again".toList 0 0 true) =
        (.error (.alreadyExists "-v".toList), unchecked_v) ∧
      (unchecked_v.add_argument "-q".toList "quiet".toList 2 1 true) =
        (.error (.lowerAboveUpper 2 1), unchecked_v) ∧
      (unchecked_v.add_argument "-q".toList "quiet".toList 1 2 true).1.failed = false ∧
      (unchecked_v.add_argument "-q".toList "quiet".toList 1 2 true).2.help =
        unchecked_v.help ++ ["quiet".toList] ∧
      (unchecked_v.add_argument "-q".toList "quiet".toList 1 2 true).2.get_help "-v".toList =
        .ok "verbose".toList ∧
      (unchecked_v.add_argument "-q".toList "quiet".toList 1 2 true).2.get_bounds
        "-v".toList = unchecked_v.get_bounds "-v".toList :=
  ⟨Reachable.add_argument "-v".toList "verbose".toList 0 0 true (Reachable.ofBool false rfl),
    by decide, by decide, by decide, by decide,
    ((add_argument_spec unchecked_v
      (Reachable.add_argument "-v".toList "verbose".toList 0 0 true (Reachable.ofBool false rfl))
      "-q".toList "quiet".toList 1 2 true).2.2 (by decide)).1,
    by decide,
    (((add_argument_spec unchecked_v
      (Reachable.add_argument "-v".toList "verbose".toList 0 0 true (Reachable.ofBool false rfl))
      "-q".toList "quiet".toList 1 2 true).2.2 (by decide)).2.2.2 "-v".toList
        (by decide)).2.2⟩

/-! ## Alias groups -/

/-- C17, on a caught failure: on the constraint that registers only `-v`, the alias form of
`add_argument` with the aliases `-v`, `-x` throws at `-v`, which is registered, after it has
recorded the group; the group `{-v, -x}` stays in `get_alias_groups()` and `-x` is not
registered. -/
theorem alias_group_left_by_failed_call :
    Reachable (unchecked_v.add_argument_aliases ["-v".toList, "-x".toList] "both".toList 0 0).2 ∧
      (unchecked_v.add_argument_aliases ["-v".toList, "-x".toList] "both".toList 0 0).1 =
        .error (.alreadyExists "-v".toList) ∧
      {"-v".toList, "-x".toList} ∈
        (unchecked_v.add_argument_aliases ["-v".toList, "-x".toList]
          "both".toList 0 0).2.get_alias_groups ∧
      "-x".toList ∈ ({"-v".toList, "-x".toList} : Finset Str) ∧
      (unchecked_v.add_argument_aliases ["-v".toList, "-x".toList]
        "both".toList 0 0).2.has_argument "-x".toList = false :=
  ⟨Reachable.add_argument_aliases _ _ _ _
      (Reachable.add_argument "-v".toList "verbose".toList 0 0 true (Reachable.ofBool false rfl)),
    by decide, by decide, by decide, by decide⟩

/-! ## Read accessors -/

theorem add_argument_no_parsing (c : ArgumentsConstraint) (name help : Str)
    (lower upper : Nat) (group : Bool) (hp : c.require_context_parsing = false) :
    c.add_argument name help lower upper group = (.error .noContextParsing, c) := by
  unfold ArgumentsConstraint.add_argument ArgumentsConstraint.check_context_parsing
  simp [hp]

theorem add_argument_aliases_no_parsing (c : ArgumentsConstraint) (aliases : List Str)
    (help : Str) (lower upper : Nat) (hp : c.require_context_parsing = false) :
    c.add_argument_aliases aliases help lower upper = (.error .noContextParsing, c) := by
  unfold ArgumentsConstraint.add_argument_aliases ArgumentsConstraint.check_context_parsing
  simp [hp]

/-- The registry and the alias groups of a constraint without parsing are empty. -/
theorem Reachable.empty_of_no_parsing {k : ArgumentsConstraint} (h : Reachable k) :
    k.require_context_parsing = false →
      k.help = [] ∧ k.bounds = [] ∧ k.names = [] ∧ k.alias_groups = ∅ := by
  induction h with
  | default h => intro _; exact create_ok_registry _ _ _ _ h
  | ofBool b h => intro _; exact create_ok_registry _ _ _ _ (ofBool_ok b _ h)
  | ofBounds lower upper h => intro _; exact create_ok_registry _ _ _ _ h
  | @add_argument c name help lower upper group _ ih =>
    intro hp
    rw [(add_argument_flags c name help lower upper group).1] at hp
    rw [add_argument_no_parsing c name help lower upper group hp]
    exact ih hp
  | @add_argument_aliases c aliases help lower upper _ ih =>
    intro hp
    rw [(add_argument_aliases_flags c aliases help lower upper).1] at hp
    rw [add_argument_aliases_no_parsing c aliases help lower upper hp]
    exact ih hp

/-- C19: on a constraint that does not require parsing, both forms of `add_argument` fail and
leave the constraint as it was, `get_help(n)` and `get_bounds(n)` fail and `has_argument(n)` is
false for every name, and the registry and the alias groups are empty, whatever calls were made
before. -/
theorem no_parsing_registry (k : ArgumentsConstraint) (hr : Reachable k)
    (hp : k.require_context_parsing = false) :
    (∀ (name help : Str) (lower upper : Nat) (group : Bool),
        k.add_argument name help lower upper group = (.error .noContextParsing, k)) ∧
      (∀ (aliases : List Str) (help : Str) (lower upper : Nat),
        k.add_argument_aliases aliases help lower upper = (.error .noContextParsing, k)) ∧
      (∀ n, k.get_help n = .error (.doesNotExist n) ∧
        k.get_bounds n = .error (.doesNotExist n) ∧ k.has_argument n = false) ∧
      k.help = [] ∧ k.bounds = [] ∧ k.names = [] ∧ k.get_alias_groups = ∅ := by
  obtain ⟨h1, h2, h3, h4⟩ := hr.empty_of_no_parsing hp
  refine ⟨fun name help lower upper group =>
      add_argument_no_parsing k name help lower upper group hp,
    fun aliases help lower upper => add_argument_aliases_no_parsing k aliases help lower upper hp,
    fun n => ?_, h1, h2, h3, h4⟩
  simp [ArgumentsConstraint.get_help, ArgumentsConstraint.get_bounds,
    ArgumentsConstraint.has_argument, h3]

/-- C19, at the default-constructed constraint, also after two calls that failed on it. -/
theorem no_parsing_registry_witness :
    Reachable no_parsing ∧ no_parsing.require_context_parsing = false ∧
      Reachable ((no_parsing.add_argument "-v".toList "verbose".toList 0 0 true).2.add_argument_aliases
        ["-a".toList, "-b".toList] "both".toList 0 0).2 ∧
      ((no_parsing.add_argument "-v".toList "verbose".toList 0 0 true).2.add_argument_aliases
        ["-a".toList, "-b".toList] "both".toList 0 0).2 = no_parsing ∧
      no_parsing.add_argument "-v".toList "verbose".toList 0 0 true =
        (.error .noContextParsing, no_parsing) ∧
      (∀ n, no_parsing.get_help n = .error (.doesNotExist n) ∧
        no_parsing.get_bounds n = .error (.doesNotExist n) ∧
        no_parsing.has_argument n = false) :=
  ⟨Reachable.default rfl, rfl,
    Reachable.add_argument_aliases _ _ _ _
      (Reachable.add_argument "-v".toList "verbose".toList 0 0 true (Reachable.default rfl)),
    by decide,
    (no_parsing_registry no_parsing (Reachable.default rfl) rfl).1 "-v".toList
      "verbose".toList 0 0 true,
    (no_parsing_registry no_parsing (Reachable.default rfl) rfl).2.2.1⟩

/-! ## Value bounds and help texts in the classification -/

theorem add_token_congr (k1 k2 : ArgumentsConstraint)
    (hac : k1.arguments_checking = k2.arguments_checking)
    (hn : ∀ n, k1.has_argument n = k2.has_argument n) (st : ScanState) (t : Str) :
    add_token k1 st t = add_token k2 st t := by
  unfold add_token
  cases st.current_parameter with
  | none => rfl
  | some p => simp only [hac, hn p]

theorem add_short_flags_congr (k1 k2 : ArgumentsConstraint)
    (hac : k1.arguments_checking = k2.arguments_checking)
    (hn : ∀ n, k1.has_argument n = k2.has_argument n) (cs : List Char) :
    ∀ st : ScanState, add_short_flags k1 st cs = add_short_flags k2 st cs := by
  induction cs with
  | nil => intro st; rfl
  | cons c cs ih =>
    intro st
    unfold add_short_flags
    simp only [add_token_congr k1 k2 hac hn, ih]

theorem scan_token_congr (k1 k2 : ArgumentsConstraint)
    (hac : k1.arguments_checking = k2.arguments_checking)
    (hn : ∀ n, k1.has_argument n = k2.has_argument n) (st : ScanState) (t : Str) :
    scan_token k1 st t = scan_token k2 st t := by
  unfold scan_token
  simp only [add_token_congr k1 k2 hac hn, add_short_flags_congr k1 k2 hac hn]

theorem scan_tokens_congr (k1 k2 : ArgumentsConstraint)
    (hac : k1.arguments_checking = k2.arguments_checking)
    (hn : ∀ n, k1.has_argument n = k2.has_argument n) (ts : List Str) :
    ∀ st : ScanState, scan_tokens k1 st ts = scan_tokens k2 st ts := by
  induction ts with
  | nil => intro st; rfl
  | cons t ts ih =>
    intro st
    unfold scan_tokens
    simp only [scan_token_congr k1 k2 hac hn, ih]

/-- C20: two constraints that agree on `require_context_parsing`, `arguments_checking`, the
positional bounds and the registered names give the same classification of every message, the
same positional and keyword arguments or the same failure, whatever help texts and value bounds
they register. -/
theorem classification_ignores_value_bounds (client : Nat) (message : Str)
    (k1 k2 : ArgumentsConstraint)
    (hrp : k1.require_context_parsing = k2.require_context_parsing)
    (hac : k1.arguments_checking = k2.arguments_checking)
    (hb : k1.args_bounds = k2.args_bounds)
    (hn : ∀ n, k1.has_argument n = k2.has_argument n) :
    classification (get_context client message k1) =
      classification (get_context client message k2) := by
  rw [classification_get_context, classification_get_context]
  unfold classify
  rw [hrp, hac, hb, scan_tokens_congr k1 k2 hac hn]

/-- C20, at two constraints that register `-v` with the value bounds `(0, 0)` and `(3, 5)`: under
both, `-v` absorbs the two tokens that follow it. -/
theorem classification_ignores_value_bounds_witness :
    checked_v.get_bounds "-v".toList = .ok (0, 0) ∧
      checked_v_wide.get_bounds "-v".toList = .ok (3, 5) ∧
      checked_v.get_help "-v".toList ≠ checked_v_wide.get_help "-v".toList ∧
      (∀ n, checked_v.has_argument n = checked_v_wide.has_argument n) ∧
      classification (get_context 0 "a -v x y".toList checked_v) =
        .ok (["a".toList], [("-v".toList, ["-v".toList, "x".toList, "y".toList])]) ∧
      classification (get_context 0 "a -v x y".toList checked_v) =
        classification (get_context 0 "a -v x y".toList checked_v_wide) :=
  ⟨by decide, by decide, by decide, fun _ => rfl, by decide,
    classification_ignores_value_bounds 0 "a -v x y".toList checked_v checked_v_wide rfl rfl rfl
      (fun _ => rfl)⟩

/-! ## Parsing without checking -/

end LiteShell
